import Mathlib

/-!
Verification of the topology reconstruction and reconciliation engine of
DALnet/rnexus.

The definitions below are a shallow embedding of the Go source:

* internal/routing/links.go : LinkEntry, LinkTree, Add, GetLinkedServers,
  Build, sortHierarchically, sortChildren, formatLine, hasMoreAtLevel,
  CompareToMap;
* the routing-map parser (Map, LoadMap and its helpers).

Modelling conventions:

* Go strings are Lean Strings; character-level work is done on String.data
  (Go compares and slices strings byte-wise; for valid UTF-8 the byte-wise
  lexicographic order and the code-point lexicographic order coincide, and
  all separators used by the program are ASCII).
* Go int is Int.
* The Go map entries (map[string]*LinkEntry) is a list of entries whose
  server names are pairwise distinct (assignment t.entries[server] = e is
  setEntry, which overwrites in place).  Go map iteration order is
  unspecified; the list order stands in for one arbitrary iteration order,
  and every claim proved below is insensitive to it under the claim's
  hypotheses.
* sortChildren recurses through hub pointers and does not terminate in Go
  on a reachable hub cycle; the embedding gives the recursion fuel
  l.length, which is enough on every input on which the Go code
  terminates (an acyclic reachable part has chains of fewer than l.length
  steps), so the embedding agrees with the source wherever the source
  terminates.
* sort.Slice with the strict comparator Server < Server is unstable, but
  distinct keys make the sorted order unique, so any correct sort models
  it; we use List.insertionSort.
* Char.toLower models strings.ToLower / the parser's (?i) flag on the
  ASCII letters, the only letters the program's patterns contain.
* unicode.IsSpace (goIsSpace) and the RE2 class \s (reSpace) are modelled
  on their ASCII members.
-/

/-- LinkEntry represents a single server link from a LINKS response
(links.go). -/
structure LinkEntry where
  server : String
  hub : String
  hops : Int
  description : String
deriving DecidableEq, Repr

/-- LinkTree holds the collected LINKS data: the entries map and the order
of insertion (links.go). -/
structure LinkTree where
  entries : List LinkEntry
  order : List String
deriving DecidableEq, Repr

/-- NewLinkTree creates a new link tree collector (links.go). -/
def NewLinkTree : LinkTree := { entries := [], order := [] }

/-- Assignment t.entries[server] = e on the list model of the Go map:
replace the entry with the same server key in place, else append. -/
def setEntry : List LinkEntry → LinkEntry → List LinkEntry
  | [], e => [e]
  | x :: rest, e => if x.server = e.server then e :: rest else x :: setEntry rest e

/-- Add adds a link entry from IRC numeric 364 (links.go): overwrites the
entry for the server and appends the server to the insertion order. -/
def LinkTree.Add (t : LinkTree) (server hub : String) (hops : Int) (description : String) :
    LinkTree :=
  { entries := setEntry t.entries ⟨server, hub, hops, description⟩
    order := t.order ++ [server] }

/-- Index of the first dot, strings.Index(server, ".") on the character
list (the dot is one byte, so byte index and character index agree on the
portion before the first dot). -/
def firstDotPos : List Char → Option Nat
  | [] => none
  | c :: cs => if c = '.' then some 0 else (firstDotPos cs).map (· + 1)

/-- The short-name extraction inside GetLinkedServers and CompareToMap
(links.go): short := server; if idx := strings.Index(server, "."); idx > 0
then short = server[:idx]. -/
def stripShort (server : String) : String :=
  match firstDotPos server.data with
  | some idx => if 0 < idx then (server.data.take idx).asString else server
  | none => server

/-- GetLinkedServers returns the short form of every held server name
(links.go).  Go iterates the map in unspecified order; the entry-list
order stands in for it. -/
def LinkTree.GetLinkedServers (t : LinkTree) : List String :=
  t.entries.map (fun e => stripShort e.server)

/-- The comparator of sortChildren (links.go):
children[i].Server < children[j].Server, as the non-strict total preorder
used by the modelling sort. -/
def entryLE (a b : LinkEntry) : Prop := a.server.data ≤ b.server.data

instance : DecidableRel entryLE := fun a b =>
  inferInstanceAs (Decidable (a.server.data ≤ b.server.data))

instance : IsTotal LinkEntry entryLE :=
  ⟨fun a b => le_total a.server.data b.server.data⟩

instance : IsTrans LinkEntry entryLE :=
  ⟨fun _ _ _ h1 h2 => le_trans h1 h2⟩

/-- The child collection and sort inside sortChildren (links.go): all
entries with Hub == parent and Server != parent, sorted by server name. -/
def children (l : List LinkEntry) (parent : String) : List LinkEntry :=
  List.insertionSort entryLE
    (l.filter (fun e => e.hub == parent && e.server != parent))

/-- The recursion of sortChildren (links.go): for each sorted child,
append its name and recurse.  fuel bounds the recursion depth (see the
header comment). -/
def walk (l : List LinkEntry) : Nat → String → List String
  | 0, _ => []
  | fuel + 1, parent =>
    (children l parent).flatMap (fun c => c.server :: walk l fuel c.server)

/-- sortHierarchically returns servers in depth-first tree order starting
at the root (links.go). -/
def sortHierarchically (l : List LinkEntry) (root : String) : List String :=
  root :: walk l l.length root

/-- Map lookup t.entries[server] (first, hence unique, entry with the
given name). -/
def lookupEntry (l : List LinkEntry) (s : String) : Option LinkEntry :=
  l.find? (fun e => e.server == s)

/-- hasMoreAtLevel (links.go): does any not-yet-rendered name in remaining
resolve to an entry whose hop count equals level. -/
def hasMoreAtLevel (l : List LinkEntry) (level : Int) (remaining : List String) : Bool :=
  remaining.any (fun server =>
    match lookupEntry l server with
    | some entry => entry.hops == level
    | none => false)

/-- fmt.Sprintf("%s (%d) %s", entry.Server, entry.Hops, entry.Description)
(links.go). -/
def baseLine (e : LinkEntry) : String :=
  e.server ++ " (" ++ toString e.hops ++ ") " ++ e.description

/-- The level loop of formatLine (links.go): for level := 1; level <
hops; level++ { ... }, one list element per iteration. -/
def levelsOf (hops : Int) : List Int :=
  (List.range (hops - 1).toNat).map (fun k => (k : Int) + 1)

/-- The prefix builder of formatLine (links.go): per level, a bar segment
if a later entry sits at level+1, else four spaces. -/
def buildSeg (l : List LinkEntry) (remaining : List String) : List Int → String
  | [] => ""
  | level :: more =>
    (if hasMoreAtLevel l (level + 1) remaining then "   |" else "    ") ++
      buildSeg l remaining more

/-- formatLine (links.go). -/
def formatLine (l : List LinkEntry) (e : LinkEntry) (remaining : List String) : String :=
  if e.hops == 0 then baseLine e
  else buildSeg l remaining (levelsOf e.hops) ++ "|_ " ++ baseLine e

/-- The render loop of Build (links.go): for i, server := range ordered,
the line uses entries[server] and the not-yet-rendered tail
ordered[i+1:].  Go dereferences the lookup without a nil check; the none
branch is unreachable because every rendered name is an entry's name. -/
def renderLines (l : List LinkEntry) : List String → List String
  | [] => []
  | server :: rest =>
    (match lookupEntry l server with
     | some entry => formatLine l entry rest
     | none => "") :: renderLines l rest

/-- Build constructs the sorted tree and returns formatted lines
(links.go): empty snapshot gives no lines; a failed root search (root
name left "") gives the single diagnostic line. -/
def LinkTree.Build (t : LinkTree) : List String :=
  if t.entries.length = 0 then []
  else
    let root :=
      match t.entries.find? (fun e => e.hops == 0) with
      | some e => e.server
      | none => ""
    if root = "" then ["Error: no root server found"]
    else renderLines t.entries (sortHierarchically t.entries root)

/-- strings.ToLower on the ASCII letters (see header). -/
def asciiLower (s : String) : String := (s.data.map Char.toLower).asString

/-- Map represents the routing configuration (map parser source): raw
lines, the name-to-uplinks map (modelled as a list with pairwise distinct
keys), and the ordered server-name list. -/
structure Map where
  Raw : List String
  Servers : List (String × List String)
  ServerList : List String
deriving DecidableEq, Repr

/-- CompareToMap (links.go): total catalog count, observed linked count,
and the catalog names (short form) with no case-insensitive match among
the linked short names. -/
def CompareToMap (tree : LinkTree) (rmap : Map) : Nat × Nat × List String :=
  let linked := tree.GetLinkedServers
  let missing := rmap.ServerList.filterMap (fun server =>
    let short := stripShort server
    if linked.any (fun s => asciiLower s == asciiLower short) then none
    else some short)
  (rmap.ServerList.length, linked.length, missing)

/-- unicode.IsSpace on its ASCII members (see header). -/
def goIsSpace (c : Char) : Bool :=
  c == ' ' || c == '\t' || c == '\n' || c == '\x0b' || c == '\x0c' || c == '\r'

/-- The RE2 character class backslash-s: [tab, newline, formfeed,
carriage-return, space]. -/
def reSpace (c : Char) : Bool :=
  c == '\t' || c == '\n' || c == '\x0c' || c == '\r' || c == ' '

/-- strings.ReplaceAll(line, "\r", "") — for the one-character pattern
this deletes every carriage return. -/
def cleanLine (s : String) : String :=
  (s.data.filter (fun c => c != '\r')).asString

/-- Case folding of a string to a character list, for the parser's (?i)
regexp flag. -/
def lowerData (s : String) : List Char := s.data.map Char.toLower

/-- Contiguous-subsequence test on character lists
(strings/regexp containment). -/
def hasSub (pat : List Char) : List Char → Bool
  | [] => pat.isEmpty
  | c :: rest => pat.isPrefixOf (c :: rest) || hasSub pat rest

/-- Case-insensitive anchored match at the start of the line. -/
def startsWithCI (s pat : String) : Bool :=
  (lowerData pat).isPrefixOf (lowerData s)

/-- Case-insensitive containment anywhere in the line. -/
def containsCI (s pat : String) : Bool :=
  hasSub (lowerData pat) (lowerData s)

/-- skipPatterns.MatchString (map parser source): the regexp
(?i)^Tier|^Hub:|^Client:|^Special:|^LOA|===|DALnet Routing|^Temporary|^---|^\s*$
— an alternation of anchored prefixes, two unanchored substrings, and the
all-whitespace line. -/
def skipLine (line : String) : Bool :=
  startsWithCI line "Tier" || startsWithCI line "Hub:" || startsWithCI line "Client:" ||
  startsWithCI line "Special:" || startsWithCI line "LOA" || containsCI line "===" ||
  containsCI line "DALnet Routing" || startsWithCI line "Temporary" ||
  startsWithCI line "---" || line.data.all reSpace

/-- strings.TrimSpace (map parser source), on the modelled space set. -/
def goTrimSpace (s : String) : String :=
  (((s.data.dropWhile goIsSpace).reverse.dropWhile goIsSpace).reverse).asString

/-- Accumulator loop of strings.Fields: split around runs of white
space. -/
def goFieldsAux : List Char → List Char → List String
  | [], acc => if acc.isEmpty then [] else [acc.reverse.asString]
  | c :: cs, acc =>
    if goIsSpace c then
      if acc.isEmpty then goFieldsAux cs []
      else acc.reverse.asString :: goFieldsAux cs []
    else goFieldsAux cs (c :: acc)

/-- strings.Fields (map parser source). -/
def goFields (s : String) : List String := goFieldsAux s.data []

/-- strings.HasPrefix. -/
def goHasPrefix (s pre : String) : Bool := pre.data.isPrefixOf s.data

/-- The hub-token filter of LoadMap (map parser source): discard tokens
opening with a parenthesis or an equals sign. -/
def keepHub (h : String) : Bool := !goHasPrefix h "(" && !goHasPrefix h "="

/-- Go map assignment m.Servers[server] = hubs on the list model:
overwrite in place, else append. -/
def setKey : List (String × List String) → String → List String →
    List (String × List String)
  | [], k, v => [(k, v)]
  | (k0, v0) :: rest, k, v =>
    if k0 = k then (k, v) :: rest else (k0, v0) :: setKey rest k v

/-- Go map read m.Servers[k]. -/
def getKey (m : List (String × List String)) (k : String) : Option (List String) :=
  (m.find? (fun p => p.1 == k)).map (fun p => p.2)

/-- The body of LoadMap's scanner loop (map parser source) for one input
line: clean carriage returns, keep the raw line, skip non-server lines,
split at the first colon, trim the name, drop annotation tokens, store
the uplinks (last write wins) and append the name to the ordered list. -/
def processLine (m : Map) (rawLine : String) : Map :=
  let line := cleanLine rawLine
  let m1 : Map := { m with Raw := m.Raw ++ [line] }
  if skipLine line then m1
  else if line.data.contains ':' then
    let server := goTrimSpace (line.data.takeWhile (fun c => c != ':')).asString
    if server = "" then m1
    else
      let hubPart := goTrimSpace ((line.data.dropWhile (fun c => c != ':')).drop 1).asString
      let hubs := (goFields hubPart).filter keepHub
      { m1 with Servers := setKey m1.Servers server hubs
                ServerList := m1.ServerList ++ [server] }
  else m1

/-- LoadMap (map parser source) on the document's line list (the scanner
yields one line per input line, without its newline). -/
def LoadMap (lines : List String) : Map :=
  lines.foldl processLine { Raw := [], Servers := [], ServerList := [] }

/-- The per-line outcome of LoadMap's parse branch: the stored
name/uplink pair of a data line, none for a skipped, colon-free or
empty-name line.  Used to state what the fold preserves. -/
def lineData (rawLine : String) : Option (String × List String) :=
  if skipLine (cleanLine rawLine) then none
  else if (cleanLine rawLine).data.contains ':' then
    if goTrimSpace ((cleanLine rawLine).data.takeWhile (fun c => c != ':')).asString = ""
    then none
    else
      some (goTrimSpace ((cleanLine rawLine).data.takeWhile (fun c => c != ':')).asString,
        (goFields (goTrimSpace
          (((cleanLine rawLine).data.dropWhile (fun c => c != ':')).drop 1).asString)).filter
          keepHub)
  else none

/-- The name stored by a data line, if any. -/
def lineName (rawLine : String) : Option String := (lineData rawLine).map (fun p => p.1)

/-- Whitespace join of a token list, to state lines of the form
name ":" token-list. -/
def joinSpace : List String → String
  | [] => ""
  | [t] => t
  | t :: rest => t ++ " " ++ joinSpace rest

/-- The server names held by an entry list. -/
def servers (l : List LinkEntry) : List String := l.map (fun e => e.server)

/-- v is a child of the node named parent: some record has server v, hub
parent, and v differs from parent (the filter of sortChildren). -/
def isChildName (l : List LinkEntry) (parent v : String) : Prop :=
  ∃ e, e ∈ l ∧ e.server = v ∧ e.hub = parent ∧ v ≠ parent

/-- Boolean form of isChildName. -/
def childNameB (l : List LinkEntry) (parent v : String) : Bool :=
  l.any (fun e => e.server == v && e.hub == parent && v != parent)

/-- A chain of child steps starting at p and passing through the listed
names in order (the last listed name is the chain's target). -/
inductive PathFrom (l : List LinkEntry) : String → List String → Prop
  | single {p v : String} : isChildName l p v → PathFrom l p [v]
  | cons {p u : String} {vs : List String} :
      isChildName l p u → PathFrom l u vs → PathFrom l p (u :: vs)

/-- Spec-side scan for the continuation bar, written from the spec's
words: some entry of the remaining sequence has the given hop count. -/
def specHasEntryAtLevel (l : List LinkEntry) (level : Int) (remaining : List String) : Bool :=
  remaining.any (fun s => l.any (fun e => e.server == s && e.hops == level))

/-- Spec-side prefix builder: per level of 1 .. hops-1, a three-space-
plus-bar segment if some remaining entry sits at level+1, else four
spaces. -/
def specSeg (l : List LinkEntry) (remaining : List String) : List Int → String
  | [] => ""
  | level :: more =>
    (if specHasEntryAtLevel l (level + 1) remaining then "   |" else "    ") ++
      specSeg l remaining more

/-- Spec-side line rendering, written from the spec's words: the root is
rendered bare; any other node gets the level prefix, the fixed marker,
then name, hops and description. -/
def specFormatLine (l : List LinkEntry) (e : LinkEntry) (remaining : List String) : String :=
  if e.hops == 0 then e.server ++ " (" ++ toString e.hops ++ ") " ++ e.description
  else
    specSeg l remaining (levelsOf e.hops) ++ "|_ " ++
      e.server ++ " (" ++ toString e.hops ++ ") " ++ e.description

/-- Replay a sequence of Add calls on a fresh collector. -/
def applyAdds (ops : List (String × String × Int × String)) : LinkTree :=
  ops.foldl (fun t op => t.Add op.1 op.2.1 op.2.2.1 op.2.2.2) NewLinkTree

/-- The snapshot of the spec's tree-order scenario. -/
def tree6 : LinkTree :=
  (((NewLinkTree.Add "hub.net" "hub.net" 0 "Hub").Add
    "a.net" "hub.net" 1 "A").Add
    "b.net" "hub.net" 1 "B").Add
    "c.net" "a.net" 2 "C"

/-! ### Basic facts about the entry map model -/

theorem asString_data (s : String) : s.data.asString = s := rfl

theorem mem_servers {l : List LinkEntry} {v : String} :
    v ∈ servers l ↔ ∃ e, e ∈ l ∧ e.server = v := by
  simp [servers, List.mem_map]

theorem server_inj {l : List LinkEntry} (hnd : (servers l).Nodup) {e1 e2 : LinkEntry}
    (h1 : e1 ∈ l) (h2 : e2 ∈ l) (h : e1.server = e2.server) : e1 = e2 :=
  List.inj_on_of_nodup_map (by simpa [servers] using hnd) h1 h2 h

theorem find?_eq_some_of_unique {α : Type _} {p : α → Bool} {l : List α} {r : α}
    (hr : r ∈ l) (hp : p r = true) (hu : ∀ x ∈ l, p x = true → x = r) :
    l.find? p = some r := by
  induction l with
  | nil => cases hr
  | cons a t ih =>
    by_cases ha : p a = true
    · have : a = r := hu a (List.mem_cons_self a t) ha
      subst this
      simp [List.find?, ha]
    · have hne : a ≠ r := fun h => ha (h ▸ hp)
      have hrt : r ∈ t := by
        rcases List.mem_cons.mp hr with h | h
        · exact absurd h.symm hne
        · exact h
      have := ih hrt (fun x hx hpx => hu x (List.mem_cons_of_mem a hx) hpx)
      simp only [List.find?]
      rw [Bool.eq_false_iff.mpr ha] at *
      simpa using this

theorem lookupEntry_mem {l : List LinkEntry} {s : String} {e : LinkEntry}
    (h : lookupEntry l s = some e) : e ∈ l ∧ e.server = s := by
  refine ⟨List.mem_of_find?_eq_some h, ?_⟩
  have := List.find?_some h
  simpa using this

theorem lookupEntry_eq_some {l : List LinkEntry} (hnd : (servers l).Nodup)
    {s : String} {e : LinkEntry} (he : e ∈ l) (hs : e.server = s) :
    lookupEntry l s = some e := by
  refine find?_eq_some_of_unique he (by simpa using hs) ?_
  intro x hx hpx
  have hxs : x.server = s := by simpa using hpx
  exact server_inj hnd hx he (hxs.trans hs.symm)

/-! ### C6: the concrete tree-order scenario -/

/-- C6: on the snapshot {(hub.net,hub.net,0), (a.net,hub.net,1),
(b.net,hub.net,1), (c.net,a.net,2)} the Tree Builder locates hub.net as
the root and orders the servers [hub.net, a.net, c.net, b.net]. -/
theorem c6_scenario :
    sortHierarchically tree6.entries "hub.net" = ["hub.net", "a.net", "c.net", "b.net"] ∧
    (tree6.entries.find? (fun e => e.hops == 0)).map (fun e => e.server) = some "hub.net" := by
  decide

/-! ### C4: short-name extraction -/

theorem firstDotPos_none_takeWhile {cs : List Char} (h : firstDotPos cs = none) :
    cs.takeWhile (fun c => c != '.') = cs := by
  induction cs with
  | nil => rfl
  | cons c cs ih =>
    by_cases hc : c = '.'
    · simp [firstDotPos, hc] at h
    · simp only [firstDotPos, if_neg hc] at h
      cases hfd : firstDotPos cs with
      | some j =>
        rw [hfd] at h
        cases (show some (j + 1) = (none : Option Nat) from h)
      | none => simp [List.takeWhile_cons, bne_iff_ne, hc, ih hfd]

theorem firstDotPos_take {cs : List Char} {i : Nat} (h : firstDotPos cs = some i) :
    cs.take i = cs.takeWhile (fun c => c != '.') := by
  induction cs generalizing i with
  | nil => simp [firstDotPos] at h
  | cons c cs ih =>
    by_cases hc : c = '.'
    · simp only [firstDotPos, if_pos hc] at h
      cases h
      simp [List.takeWhile_cons, hc]
    · simp only [firstDotPos, if_neg hc] at h
      cases hfd : firstDotPos cs with
      | none =>
        rw [hfd] at h
        cases (show (none : Option Nat) = some i from h)
      | some j =>
        rw [hfd] at h
        cases (show some (j + 1) = some i from h)
        simp [List.take_succ_cons, List.takeWhile_cons, bne_iff_ne, hc, ih hfd]

theorem stripShort_of_none {s : String} (h : firstDotPos s.data = none) :
    stripShort s = s := by
  unfold stripShort
  rw [h]

theorem stripShort_of_some {s : String} {i : Nat} (h : firstDotPos s.data = some i) :
    stripShort s = if 0 < i then (s.data.take i).asString else s := by
  unfold stripShort
  rw [h]

/-- C4 counterexample: on the name ".net", whose first character is the
separator, the text up to and excluding the first separator is the empty
string, but the snapshot's linked-server-name operation returns the name
unchanged. -/
theorem c4_counterexample :
    (NewLinkTree.Add ".net" "hub.net" 1 "Leading dot").GetLinkedServers = [".net"] ∧
    ((".net" : String).data.takeWhile (fun c => c != '.')).asString = "" ∧
    (".net" : String) ≠ "" := by
  decide

/-- C4 (amended): GetLinkedServers maps every held record to the stripped
form of its server name; stripping takes the text before the first dot
when the name's first character is not the dot, and returns a name whose
first character is the dot (like a name with no dot) unchanged. -/
theorem c4_amended (t : LinkTree) (s : String) :
    t.GetLinkedServers = t.entries.map (fun e => stripShort e.server) ∧
    (s.data.head? = some '.' → stripShort s = s) ∧
    (s.data.head? ≠ some '.' → stripShort s = (s.data.takeWhile (fun c => c != '.')).asString) := by
  refine ⟨rfl, ?_, ?_⟩
  · intro h
    cases hd : s.data with
    | nil => rw [hd] at h; cases h
    | cons c cs =>
      have hc : c = '.' := by
        rw [hd] at h
        simpa using h
      have h1 : firstDotPos s.data = some 0 := by
        rw [hd]
        simp [firstDotPos, hc]
      rw [stripShort_of_some h1]
      simp
  · intro h
    cases hd : s.data with
    | nil =>
      have h1 : firstDotPos s.data = none := by rw [hd]; rfl
      rw [stripShort_of_none h1]
      exact String.ext hd
    | cons c cs =>
      have hc : c ≠ '.' := by
        intro hc
        exact h (by rw [hd, hc]; rfl)
      cases hfd : firstDotPos cs with
      | none =>
        have h1 : firstDotPos s.data = none := by
          rw [hd]; simp [firstDotPos, hc, hfd]
        have h2 : (c :: cs).takeWhile (fun c => c != '.') = c :: cs := by
          simp [List.takeWhile_cons, bne_iff_ne, hc, firstDotPos_none_takeWhile hfd]
        rw [stripShort_of_none h1, h2]
        exact String.ext hd
      | some j =>
        have h1 : firstDotPos s.data = some (j + 1) := by
          rw [hd]; simp [firstDotPos, hc, hfd]
        have h2 := firstDotPos_take h1
        rw [hd] at h2
        rw [stripShort_of_some h1, if_pos (Nat.succ_pos j), hd, h2]

/-- Witness for the amended C4 at the concrete leading-dot name. -/
theorem c4_amended_witness :
    ((".net" : String).data.head? = some '.') ∧ stripShort ".net" = ".net" :=
  ⟨by decide, (c4_amended NewLinkTree ".net").2.1 (by decide)⟩

/-! ### C5 and C10: the root diagnostic -/

/-- C5 (amended): on a non-empty snapshot with no zero-hop record, Build
returns exactly the single "no root" diagnostic line. -/
theorem c5_amended (t : LinkTree) (hne : t.entries ≠ [])
    (h : ∀ e ∈ t.entries, e.hops ≠ 0) : t.Build = ["Error: no root server found"] := by
  have hlen : t.entries.length ≠ 0 := by
    simpa [List.length_eq_zero] using hne
  have hf : t.entries.find? (fun e => e.hops == 0) = none := by
    rw [List.find?_eq_none]
    intro e he
    simpa using h e he
  simp [LinkTree.Build, hlen, hf]

/-- C5 counterexample: the empty snapshot has no zero-hop record, yet
Build returns no lines at all rather than one diagnostic line. -/
theorem c5_counterexample :
    NewLinkTree.Build = [] ∧
    NewLinkTree.entries.all (fun e => !(e.hops == 0)) = true ∧
    NewLinkTree.Build ≠ ["Error: no root server found"] := by
  decide

/-- Witness for the amended C5 on a one-record rootless snapshot. -/
theorem c5_amended_witness :
    (⟨[⟨"a.net", "hub.net", 1, "A"⟩], ["a.net"]⟩ : LinkTree).Build =
      ["Error: no root server found"] :=
  c5_amended _ (by decide) (by decide)

theorem buildSeg_data_shape (l : List LinkEntry) (remaining : List String) (L : List Int) :
    (buildSeg l remaining L).data = [] ∨
    ∃ rest, (buildSeg l remaining L).data = ' ' :: rest := by
  cases L with
  | nil => exact Or.inl rfl
  | cons level more =>
    right
    by_cases h : hasMoreAtLevel l (level + 1) remaining = true
    · refine ⟨' ' :: ' ' :: '|' :: (buildSeg l remaining more).data, ?_⟩
      simp [buildSeg, h, String.data_append]
    · refine ⟨' ' :: ' ' :: ' ' :: (buildSeg l remaining more).data, ?_⟩
      simp [buildSeg, h, String.data_append]

theorem formatLine_ne_error (l : List LinkEntry) (e : LinkEntry) (remaining : List String) :
    formatLine l e remaining ≠ "Error: no root server found" := by
  intro heq
  have hdata := congrArg String.data heq
  by_cases h0 : (e.hops == 0) = true
  · have hmem : '(' ∈ (formatLine l e remaining).data := by
      simp [formatLine, h0, baseLine, String.data_append]
    rw [hdata] at hmem
    exact absurd hmem (by decide)
  · have hform : (formatLine l e remaining).data =
        (buildSeg l remaining (levelsOf e.hops)).data ++ ('|' :: '_' :: ' ' :: (baseLine e).data) := by
      simp [formatLine, h0, String.data_append]
    rcases buildSeg_data_shape l remaining (levelsOf e.hops) with hsh | ⟨rest, hsh⟩
    · rw [hsh] at hform
      rw [hform] at hdata
      have : ('|' : Char) = 'E' := by
        have := congrArg List.head? hdata
        simpa using this
      exact absurd this (by decide)
    · rw [hsh] at hform
      rw [hform] at hdata
      have : (' ' : Char) = 'E' := by
        have := congrArg List.head? hdata
        simpa using this
      exact absurd this (by decide)

/-- C10 counterexample: a non-empty snapshot whose only record has zero
hops (with an empty server name) still produces the "no root" diagnostic,
although it does not lack a zero-hop record. -/
theorem c10_counterexample :
    (⟨[⟨"", "", 0, "d"⟩], [""]⟩ : LinkTree).Build = ["Error: no root server found"] ∧
    ([⟨"", "", 0, "d"⟩] : List LinkEntry).any (fun e => e.hops == 0) = true := by
  decide

/-- C10 (amended): Build on an empty snapshot returns zero lines, and the
single diagnostic line is produced only for non-empty snapshots whose
root search yields no usable name: any zero-hop record it locates has the
empty string as its server name. -/
theorem c10_amended (t : LinkTree) (h : t.Build = ["Error: no root server found"]) :
    NewLinkTree.Build = [] ∧ t.entries ≠ [] ∧
    ((t.entries.find? (fun e => e.hops == 0)).all (fun e => e.server == "")) = true := by
  refine ⟨rfl, ?_, ?_⟩
  · intro hnil
    rw [LinkTree.Build, hnil] at h
    simp at h
  · cases hf : t.entries.find? (fun e => e.hops == 0) with
    | none => rfl
    | some e =>
      by_cases hs : e.server = ""
      · simp [Option.all, hs]
      · exfalso
        have hlen : ¬ t.entries.length = 0 := by
          intro h0
          rw [LinkTree.Build, if_pos h0] at h
          simp at h
        rw [LinkTree.Build, if_neg hlen, hf] at h
        simp only [if_neg hs] at h
        rw [sortHierarchically, renderLines] at h
        injection h with hhead htail
        cases hl : lookupEntry t.entries e.server with
        | some x =>
          rw [hl] at hhead
          exact formatLine_ne_error _ _ _ hhead
        | none =>
          rw [hl] at hhead
          have hempty : ("" : String) = "Error: no root server found" := hhead
          exact absurd hempty (by decide)

/-- Witness for the amended C10 at the empty-named zero-hop snapshot. -/
theorem c10_amended_witness :
    NewLinkTree.Build = [] ∧ (⟨[⟨"", "", 0, "d"⟩], [""]⟩ : LinkTree).entries ≠ [] ∧
    (((⟨[⟨"", "", 0, "d"⟩], [""]⟩ : LinkTree).entries.find?
      (fun e => e.hops == 0)).all (fun e => e.server == "")) = true :=
  c10_amended _ (by decide)

/-! ### C3: line rendering -/

theorem bool_eq_of_iff {a b : Bool} (h : a = true ↔ b = true) : a = b := by
  cases a <;> cases b <;> simp_all

theorem str_append_assoc (a b c : String) : a ++ b ++ c = a ++ (b ++ c) :=
  String.ext (by simp [String.data_append])

theorem hasMore_eq_spec {l : List LinkEntry} (hnd : (servers l).Nodup) (level : Int)
    (remaining : List String) :
    hasMoreAtLevel l level remaining = specHasEntryAtLevel l level remaining := by
  apply bool_eq_of_iff
  simp only [hasMoreAtLevel, specHasEntryAtLevel, List.any_eq_true]
  constructor
  · rintro ⟨s, hs, hmatch⟩
    cases hl : lookupEntry l s with
    | none => rw [hl] at hmatch; cases hmatch
    | some e0 =>
      rw [hl] at hmatch
      obtain ⟨he0, hse⟩ := lookupEntry_mem hl
      have hh : e0.hops = level := by simpa using hmatch
      exact ⟨s, hs, ⟨e0, he0, by simp [hse, hh]⟩⟩
  · rintro ⟨s, hs, e0, he0, hmatch⟩
    simp only [Bool.and_eq_true, beq_iff_eq] at hmatch
    refine ⟨s, hs, ?_⟩
    rw [lookupEntry_eq_some hnd he0 hmatch.1]
    simp [hmatch.2]

theorem buildSeg_eq_spec {l : List LinkEntry} (hnd : (servers l).Nodup)
    (remaining : List String) : ∀ L, buildSeg l remaining L = specSeg l remaining L := by
  intro L
  induction L with
  | nil => rfl
  | cons level more ih =>
    rw [buildSeg, specSeg, hasMore_eq_spec hnd, ih]

/-- C3: formatLine agrees with the spec's rendering rule.  The root
(zero hops) is rendered bare; any other node gets, for each level of
1 .. hops-1, a three-space-plus-bar segment exactly when some entry of
the remaining (not-yet-rendered) sequence sits at level+1 and four
spaces otherwise, then the fixed marker, then name, hop count and
description. -/
theorem c3_formatLine (l : List LinkEntry) (e : LinkEntry) (remaining : List String)
    (hnd : (servers l).Nodup) :
    formatLine l e remaining = specFormatLine l e remaining := by
  by_cases h0 : (e.hops == 0) = true
  · simp [formatLine, specFormatLine, baseLine, h0]
  · simp [formatLine, specFormatLine, baseLine, h0, buildSeg_eq_spec hnd,
      str_append_assoc]

/-- Witness for C3 at a concrete snapshot, node and remaining tail. -/
theorem c3_formatLine_witness :
    (servers tree6.entries).Nodup ∧
    formatLine tree6.entries ⟨"c.net", "a.net", 2, "C"⟩ ["b.net"] =
      specFormatLine tree6.entries ⟨"c.net", "a.net", 2, "C"⟩ ["b.net"] :=
  ⟨by decide, c3_formatLine _ _ _ (by decide)⟩

/-! ### C2: reconciliation -/

theorem perm_any {α : Type _} {l1 l2 : List α} (h : l1.Perm l2) (p : α → Bool) :
    l1.any p = l2.any p := by
  apply bool_eq_of_iff
  simp only [List.any_eq_true]
  constructor
  · rintro ⟨x, hx, hpx⟩
    exact ⟨x, h.mem_iff.mp hx, hpx⟩
  · rintro ⟨x, hx, hpx⟩
    exact ⟨x, h.mem_iff.mpr hx, hpx⟩

theorem filterMap_congr_mem {α β : Type _} {f g : α → Option β} {l : List α}
    (h : ∀ a ∈ l, f a = g a) : l.filterMap f = l.filterMap g := by
  induction l with
  | nil => rfl
  | cons a t ih =>
    rw [List.filterMap_cons, List.filterMap_cons, h a (List.mem_cons_self a t),
      ih (fun x hx => h x (List.mem_cons_of_mem a hx))]

theorem compare_missing_mem (t : LinkTree) (m : Map) (x : String) :
    x ∈ (CompareToMap t m).2.2 ↔
      ∃ c, c ∈ m.ServerList ∧
        (t.GetLinkedServers.any fun s => asciiLower s == asciiLower (stripShort c)) = false ∧
        stripShort c = x := by
  simp only [CompareToMap, List.mem_filterMap]
  constructor
  · rintro ⟨c, hc, hfc⟩
    by_cases hany : (t.GetLinkedServers.any fun s => asciiLower s == asciiLower (stripShort c)) = true
    · rw [if_pos hany] at hfc; cases hfc
    · rw [if_neg hany] at hfc
      exact ⟨c, hc, Bool.eq_false_iff.mpr hany, by simpa using hfc⟩
  · rintro ⟨c, hc, hfalse, hcx⟩
    refine ⟨c, hc, ?_⟩
    rw [if_neg (by simp [hfalse])]
    simpa using hcx

theorem compare_any_iff (t : LinkTree) (c : String) :
    (t.GetLinkedServers.any fun s => asciiLower s == asciiLower (stripShort c)) = true ↔
      ∃ e, e ∈ t.entries ∧ asciiLower (stripShort e.server) = asciiLower (stripShort c) := by
  simp only [LinkTree.GetLinkedServers, List.any_eq_true, List.mem_map]
  constructor
  · rintro ⟨s, ⟨e, he, rfl⟩, hpx⟩
    exact ⟨e, he, by simpa using hpx⟩
  · rintro ⟨e, he, hey⟩
    exact ⟨stripShort e.server, ⟨e, he, rfl⟩, by simpa using hey⟩

/-- C2: CompareToMap reports the catalog's full ordered-name count
(duplicates included) as total, the count of records held by the snapshot
as linkedCount, and a missing list that is, as a set of lower-cased
stripped names, exactly the lower-cased stripped catalog names with no
lower-cased stripped snapshot name equal to them; the missing list does
not depend on the arrival order of the snapshot's records. -/
theorem c2_compare (t : LinkTree) (m : Map) (t' : LinkTree) (y : String)
    (hp : t'.entries.Perm t.entries) :
    (CompareToMap t m).1 = m.ServerList.length ∧
    (CompareToMap t m).2.1 = t.entries.length ∧
    ((∃ x, x ∈ (CompareToMap t m).2.2 ∧ asciiLower x = y) ↔
      ((∃ c, c ∈ m.ServerList ∧ asciiLower (stripShort c) = y) ∧
        ¬ ∃ e, e ∈ t.entries ∧ asciiLower (stripShort e.server) = y)) ∧
    (CompareToMap t' m).2.2 = (CompareToMap t m).2.2 := by
  refine ⟨rfl, by simp [CompareToMap, LinkTree.GetLinkedServers], ?_, ?_⟩
  · constructor
    · rintro ⟨x, hx, hy⟩
      obtain ⟨c, hc, hfalse, hcx⟩ := (compare_missing_mem t m x).mp hx
      refine ⟨⟨c, hc, by rw [hcx]; exact hy⟩, ?_⟩
      rintro ⟨e, he, hey⟩
      have htrue := (compare_any_iff t c).mpr ⟨e, he, by rw [hey, ← hy, hcx]⟩
      rw [htrue] at hfalse
      cases hfalse
    · rintro ⟨⟨c, hc, hcy⟩, hno⟩
      cases hb : (t.GetLinkedServers.any fun s => asciiLower s == asciiLower (stripShort c)) with
      | true =>
        obtain ⟨e, he, hey⟩ := (compare_any_iff t c).mp hb
        exact absurd ⟨e, he, hey.trans hcy⟩ hno
      | false =>
        exact ⟨stripShort c, (compare_missing_mem t m _).mpr ⟨c, hc, hb, rfl⟩, hcy⟩
  · have hperm : (t'.GetLinkedServers).Perm (t.GetLinkedServers) := hp.map _
    simp only [CompareToMap]
    exact filterMap_congr_mem (fun server hs => by rw [perm_any hperm])

/-- Witness for C2 at the spec's reconciliation scenario. -/
theorem c2_compare_witness :
    ((⟨[⟨"b.net", "hub.net", 1, "B"⟩, ⟨"hub.net", "hub.net", 0, "Hub"⟩,
        ⟨"a.net", "hub.net", 1, "A"⟩], []⟩ : LinkTree).entries.Perm
      (⟨[⟨"hub.net", "hub.net", 0, "Hub"⟩, ⟨"a.net", "hub.net", 1, "A"⟩,
        ⟨"b.net", "hub.net", 1, "B"⟩], []⟩ : LinkTree).entries) ∧
    ((CompareToMap ⟨[⟨"hub.net", "hub.net", 0, "Hub"⟩, ⟨"a.net", "hub.net", 1, "A"⟩,
        ⟨"b.net", "hub.net", 1, "B"⟩], []⟩ ⟨[], [], ["hub", "a", "b", "z"]⟩).1 =
      (⟨[], [], ["hub", "a", "b", "z"]⟩ : Map).ServerList.length ∧
      (CompareToMap ⟨[⟨"hub.net", "hub.net", 0, "Hub"⟩, ⟨"a.net", "hub.net", 1, "A"⟩,
        ⟨"b.net", "hub.net", 1, "B"⟩], []⟩ ⟨[], [], ["hub", "a", "b", "z"]⟩).2.1 =
      ([⟨"hub.net", "hub.net", 0, "Hub"⟩, ⟨"a.net", "hub.net", 1, "A"⟩,
        ⟨"b.net", "hub.net", 1, "B"⟩] : List LinkEntry).length ∧
      ((∃ x, x ∈ (CompareToMap ⟨[⟨"hub.net", "hub.net", 0, "Hub"⟩,
          ⟨"a.net", "hub.net", 1, "A"⟩, ⟨"b.net", "hub.net", 1, "B"⟩], []⟩
          ⟨[], [], ["hub", "a", "b", "z"]⟩).2.2 ∧ asciiLower x = "z") ↔
        ((∃ c, c ∈ (⟨[], [], ["hub", "a", "b", "z"]⟩ : Map).ServerList ∧
            asciiLower (stripShort c) = "z") ∧
          ¬ ∃ e, e ∈ ([⟨"hub.net", "hub.net", 0, "Hub"⟩, ⟨"a.net", "hub.net", 1, "A"⟩,
            ⟨"b.net", "hub.net", 1, "B"⟩] : List LinkEntry) ∧
            asciiLower (stripShort e.server) = "z")) ∧
      (CompareToMap ⟨[⟨"b.net", "hub.net", 1, "B"⟩, ⟨"hub.net", "hub.net", 0, "Hub"⟩,
          ⟨"a.net", "hub.net", 1, "A"⟩], []⟩ ⟨[], [], ["hub", "a", "b", "z"]⟩).2.2 =
      (CompareToMap ⟨[⟨"hub.net", "hub.net", 0, "Hub"⟩, ⟨"a.net", "hub.net", 1, "A"⟩,
          ⟨"b.net", "hub.net", 1, "B"⟩], []⟩ ⟨[], [], ["hub", "a", "b", "z"]⟩).2.2) :=
  ⟨by decide, c2_compare _ _ _ _ (by decide)⟩

/-! ### C8: parser state evolution -/

theorem processLine_char (m : Map) (rawLine : String) :
    processLine m rawLine =
      { Raw := m.Raw ++ [cleanLine rawLine]
        Servers :=
          match lineData rawLine with
          | some p => setKey m.Servers p.1 p.2
          | none => m.Servers
        ServerList :=
          match lineData rawLine with
          | some p => m.ServerList ++ [p.1]
          | none => m.ServerList } := by
  unfold processLine lineData
  by_cases h1 : skipLine (cleanLine rawLine) = true
  · simp [h1]
  · by_cases h2 : (cleanLine rawLine).data.contains ':' = true
    · have h2m : ':' ∈ (cleanLine rawLine).data := by simpa using h2
      by_cases h3 :
        goTrimSpace ((cleanLine rawLine).data.takeWhile (fun c => c != ':')).asString = ""
      · simp [h1, h2m, h3]
      · simp [h1, h2m, h3]
    · have h2m : ¬ (':' ∈ (cleanLine rawLine).data) := by simpa using h2
      simp [h1, h2m]

theorem processLine_Raw (m : Map) (a : String) :
    (processLine m a).Raw = m.Raw ++ [cleanLine a] := by
  rw [processLine_char]

theorem processLine_Servers_none {a : String} (m : Map) (h : lineData a = none) :
    (processLine m a).Servers = m.Servers := by
  rw [processLine_char, h]

theorem processLine_Servers_some {a : String} {p : String × List String} (m : Map)
    (h : lineData a = some p) :
    (processLine m a).Servers = setKey m.Servers p.1 p.2 := by
  rw [processLine_char, h]

theorem processLine_ServerList_none {a : String} (m : Map) (h : lineData a = none) :
    (processLine m a).ServerList = m.ServerList := by
  rw [processLine_char, h]

theorem processLine_ServerList_some {a : String} {p : String × List String} (m : Map)
    (h : lineData a = some p) :
    (processLine m a).ServerList = m.ServerList ++ [p.1] := by
  rw [processLine_char, h]

theorem getKey_cons (k0 : String) (v0 : List String) (rest : List (String × List String))
    (k : String) :
    getKey ((k0, v0) :: rest) k = if k0 = k then some v0 else getKey rest k := by
  simp only [getKey]
  by_cases h : k0 = k
  · rw [List.find?_cons_of_pos _ (by simpa using h), if_pos h]
    rfl
  · rw [List.find?_cons_of_neg _ (by simpa using h), if_neg h]

theorem getKey_setKey (sv : List (String × List String)) (n k : String) (v : List String) :
    getKey (setKey sv n v) k = if k = n then some v else getKey sv k := by
  induction sv with
  | nil =>
    show getKey [(n, v)] k = if k = n then some v else getKey [] k
    rw [getKey_cons]
    by_cases hk : k = n
    · rw [if_pos hk.symm, if_pos hk]
    · rw [if_neg (fun h => hk h.symm), if_neg hk]
  | cons hd rest ih =>
    obtain ⟨k0, v0⟩ := hd
    by_cases h0 : k0 = n
    · simp only [setKey, if_pos h0, getKey_cons]
      by_cases hk : k = n
      · rw [if_pos hk.symm, if_pos hk]
      · have h2 : ¬ k0 = k := fun h => hk (h.symm.trans h0)
        rw [if_neg (fun h => hk h.symm), if_neg hk, if_neg h2]
    · simp only [setKey, if_neg h0, getKey_cons, ih]
      by_cases hk : k0 = k
      · have h1 : ¬ k = n := fun h => h0 (hk.trans h)
        rw [if_pos hk, if_neg h1, if_pos hk]
      · by_cases h2 : k = n
        · rw [if_neg hk, if_pos h2, if_pos h2]
        · rw [if_neg hk, if_neg h2, if_neg h2, if_neg hk]

theorem foldl_Raw (ls : List String) : ∀ m : Map,
    (ls.foldl processLine m).Raw = m.Raw ++ ls.map cleanLine := by
  induction ls with
  | nil => intro m; simp
  | cons a t ih =>
    intro m
    rw [List.foldl_cons, ih, processLine_Raw]
    simp

theorem foldl_ServerList (ls : List String) : ∀ m : Map,
    (ls.foldl processLine m).ServerList = m.ServerList ++ ls.filterMap lineName := by
  induction ls with
  | nil => intro m; simp
  | cons a t ih =>
    intro m
    rw [List.foldl_cons, ih]
    cases hld : lineData a with
    | none =>
      rw [processLine_ServerList_none m hld]
      simp [lineName, hld]
    | some p =>
      rw [processLine_ServerList_some m hld]
      simp [lineName, hld]

theorem foldl_getKey (ls : List String) : ∀ (m : Map) (k : String),
    getKey (ls.foldl processLine m).Servers k =
      ((((ls.filterMap lineData).filter (fun p => p.1 == k)).getLast?).map
        (fun p => p.2)).or (getKey m.Servers k) := by
  induction ls with
  | nil => intro m k; simp
  | cons a t ih =>
    intro m k
    rw [List.foldl_cons, ih]
    cases hld : lineData a with
    | none =>
      rw [processLine_Servers_none m hld]
      simp [hld]
    | some p =>
      rw [processLine_Servers_some m hld, getKey_setKey]
      simp only [List.filterMap_cons, hld, List.filter_cons]
      by_cases hpk : (p.1 == k) = true
      · have hk : k = p.1 := (beq_iff_eq.mp hpk).symm
        rw [if_pos hpk, if_pos hk]
        have hcons : (p :: (t.filterMap lineData).filter (fun q => q.1 == k)).getLast? =
            (((t.filterMap lineData).filter (fun q => q.1 == k)).getLast?).or (some p) := by
          rw [show p :: (t.filterMap lineData).filter (fun q => q.1 == k) =
            [p] ++ (t.filterMap lineData).filter (fun q => q.1 == k) from rfl,
            List.getLast?_append]
          rfl
        rw [hcons]
        cases ((t.filterMap lineData).filter (fun q => q.1 == k)).getLast? with
        | none => simp
        | some q => simp
      · have hk : ¬ k = p.1 := fun h => hpk (beq_iff_eq.mpr h.symm)
        rw [if_neg hpk, if_neg hk]

/-- C8: the reference parser keeps one raw line (carriage returns
removed) per input line, so the raw list length equals the input line
count; the ordered server-name list is exactly the data-line names in
first-seen-to-last-seen order, duplicates included; and the
name-to-uplinks mapping holds, for every name, the uplink list of the
last data line bearing that name. -/
theorem c8_loadMap (lines : List String) (k : String) :
    (LoadMap lines).Raw.length = lines.length ∧
    (LoadMap lines).Raw = lines.map cleanLine ∧
    (LoadMap lines).ServerList = lines.filterMap lineName ∧
    getKey (LoadMap lines).Servers k =
      (((lines.filterMap lineData).filter (fun p => p.1 == k)).getLast?).map
        (fun p => p.2) := by
  refine ⟨?_, ?_, ?_, ?_⟩
  · rw [LoadMap, foldl_Raw]
    simp
  · rw [LoadMap, foldl_Raw]
    rfl
  · rw [LoadMap, foldl_ServerList]
    rfl
  · rw [LoadMap, foldl_getKey]
    simp [getKey]

/-! ### C7: data-line token filtering -/

theorem cleanLine_eq_self {s : String} (h : ∀ c ∈ s.data, c ≠ '\r') : cleanLine s = s := by
  unfold cleanLine
  have hf : s.data.filter (fun c => c != '\r') = s.data :=
    List.filter_eq_self.mpr (fun a ha => by simpa using h a ha)
  rw [hf]
  exact asString_data s

theorem takeWhile_append_cons {α : Type _} {p : α → Bool} (xs ys : List α) (y : α)
    (hx : ∀ c ∈ xs, p c = true) (hy : p y = false) :
    (xs ++ y :: ys).takeWhile p = xs ∧ (xs ++ y :: ys).dropWhile p = y :: ys := by
  induction xs with
  | nil =>
    constructor
    · rw [List.nil_append, List.takeWhile_cons, hy]
      rfl
    · rw [List.nil_append, List.dropWhile_cons, hy]
      simp
  | cons x xs ih =>
    have hpx : p x = true := hx x (List.mem_cons_self x xs)
    obtain ⟨ih1, ih2⟩ := ih (fun c hc => hx c (List.mem_cons_of_mem x hc))
    constructor
    · rw [List.cons_append, List.takeWhile_cons, hpx]
      simp [ih1]
    · rw [List.cons_append, List.dropWhile_cons, hpx]
      simpa using ih2

theorem dropWhile_of_head {p : Char → Bool} {w : List Char}
    (h : ∀ c, w.head? = some c → p c = false) : w.dropWhile p = w := by
  cases w with
  | nil => rfl
  | cons c cs =>
    rw [List.dropWhile_cons, h c rfl]
    simp

theorem goTrimSpace_space_cons {w : List Char}
    (h1 : ∀ c, w.head? = some c → goIsSpace c = false)
    (h2 : ∀ c, w.reverse.head? = some c → goIsSpace c = false) :
    goTrimSpace ((' ' :: w).asString) = w.asString := by
  unfold goTrimSpace
  have hd : ((' ' :: w).asString).data = ' ' :: w := rfl
  rw [hd, List.dropWhile_cons]
  have hsp : goIsSpace ' ' = true := by decide
  rw [hsp, if_pos rfl, dropWhile_of_head h1, dropWhile_of_head h2, List.reverse_reverse]

theorem goFieldsAux_token {tch : List Char} (ht : ∀ c ∈ tch, goIsSpace c = false) :
    ∀ (cs acc : List Char), goFieldsAux (tch ++ cs) acc = goFieldsAux cs (tch.reverse ++ acc) := by
  induction tch with
  | nil => intro cs acc; simp
  | cons c tcs ih =>
    intro cs acc
    have hc : goIsSpace c = false := ht c (List.mem_cons_self c tcs)
    rw [List.cons_append, goFieldsAux, hc]
    simp only [Bool.false_eq_true, if_false]
    rw [ih (fun x hx => ht x (List.mem_cons_of_mem c hx)) cs (c :: acc)]
    simp [List.append_assoc]

theorem goFields_join {toks : List String}
    (h : ∀ t ∈ toks, t.data ≠ [] ∧ ∀ c ∈ t.data, goIsSpace c = false) :
    goFieldsAux (joinSpace toks).data [] = toks := by
  induction toks with
  | nil => rfl
  | cons t rest ih =>
    obtain ⟨htne, htns⟩ := h t (List.mem_cons_self t rest)
    have hrest := fun x hx => h x (List.mem_cons_of_mem t hx)
    cases rest with
    | nil =>
      show goFieldsAux t.data [] = [t]
      rw [show t.data = t.data ++ ([] : List Char) by simp, goFieldsAux_token htns]
      rw [goFieldsAux]
      have hne : (t.data.reverse ++ []).isEmpty = false := by
        simp [List.isEmpty_iff, htne]
      rw [hne]
      simp [asString_data]
    | cons t2 rest2 =>
      have hjoin : (joinSpace (t :: t2 :: rest2)).data =
          t.data ++ ' ' :: (joinSpace (t2 :: rest2)).data := by
        show (t ++ " " ++ joinSpace (t2 :: rest2)).data = _
        simp [String.data_append]
      rw [hjoin, goFieldsAux_token htns, goFieldsAux]
      have hsp : goIsSpace ' ' = true := by decide
      rw [hsp, if_pos rfl]
      have hne : (t.data.reverse ++ []).isEmpty = false := by
        simp [List.isEmpty_iff, htne]
      rw [hne]
      simp only [Bool.false_eq_true, if_false]
      rw [ih hrest]
      simp [asString_data]


theorem mem_of_head?_eq_some {α : Type _} {l : List α} {a : α} (h : l.head? = some a) :
    a ∈ l := by
  cases l with
  | nil => cases h
  | cons x xs =>
    cases h
    exact List.mem_cons_self _ _

theorem joinSpace_data_cons (t t2 : String) (rest : List String) :
    (joinSpace (t :: t2 :: rest)).data = t.data ++ ' ' :: (joinSpace (t2 :: rest)).data := by
  show (t ++ " " ++ joinSpace (t2 :: rest)).data = _
  simp [String.data_append]

theorem joinSpace_ne_nil {t : String} {rest : List String} (ht : t.data ≠ []) :
    (joinSpace (t :: rest)).data ≠ [] := by
  cases rest with
  | nil => exact ht
  | cons t2 rest2 =>
    rw [joinSpace_data_cons]
    simp [ht]

theorem joinSpace_head {toks : List String}
    (htoks : ∀ t ∈ toks, t.data ≠ [] ∧ ∀ c ∈ t.data, goIsSpace c = false) :
    ∀ c, (joinSpace toks).data.head? = some c → goIsSpace c = false := by
  cases toks with
  | nil => intro c hc; cases hc
  | cons t rest =>
    obtain ⟨hne, hns⟩ := htoks t (List.mem_cons_self t rest)
    intro c hc
    refine hns c ?_
    cases rest with
    | nil => exact mem_of_head?_eq_some hc
    | cons t2 rest2 =>
      rw [joinSpace_data_cons] at hc
      cases hdt : t.data with
      | nil => exact absurd hdt hne
      | cons x xs =>
        rw [hdt, List.cons_append] at hc
        have hxc : x = c := by simpa using hc
        rw [← hxc]
        simp [hdt]

theorem joinSpace_last {toks : List String}
    (htoks : ∀ t ∈ toks, t.data ≠ [] ∧ ∀ c ∈ t.data, goIsSpace c = false) :
    ∀ c, (joinSpace toks).data.reverse.head? = some c → goIsSpace c = false := by
  induction toks with
  | nil => intro c hc; cases hc
  | cons t rest ih =>
    obtain ⟨hne, hns⟩ := htoks t (List.mem_cons_self t rest)
    have hrest := fun x hx => htoks x (List.mem_cons_of_mem t hx)
    intro c hc
    cases rest with
    | nil =>
      exact hns c (List.mem_reverse.mp (mem_of_head?_eq_some hc))
    | cons t2 rest2 =>
      rw [joinSpace_data_cons, List.reverse_append, List.reverse_cons] at hc
      have hJne : (joinSpace (t2 :: rest2)).data ≠ [] :=
        joinSpace_ne_nil (htoks t2 (List.mem_cons_of_mem t (List.mem_cons_self t2 rest2))).1
      cases hdr : (joinSpace (t2 :: rest2)).data.reverse with
      | nil => exact absurd (by simpa using hdr) hJne
      | cons x xs =>
        rw [hdr, List.append_assoc, List.cons_append] at hc
        cases hc
        exact ih hrest c (by rw [hdr]; rfl)

theorem joinSpace_chars : ∀ (toks : List String),
    (∀ t ∈ toks, t.data ≠ [] ∧ ∀ c ∈ t.data, goIsSpace c = false) →
    ∀ c ∈ (joinSpace toks).data, goIsSpace c = false ∨ c = ' ' := by
  intro toks
  induction toks with
  | nil => intro _ c hc; cases hc
  | cons t rest ih =>
    intro htoks c hc
    cases rest with
    | nil =>
      exact Or.inl ((htoks t (List.mem_cons_self _ _)).2 c hc)
    | cons t2 rest2 =>
      rw [joinSpace_data_cons] at hc
      rcases List.mem_append.mp hc with hc | hc
      · exact Or.inl ((htoks t (List.mem_cons_self _ _)).2 c hc)
      · rcases List.mem_cons.mp hc with rfl | hc
        · exact Or.inr rfl
        · exact ih (fun x hx => htoks x (List.mem_cons_of_mem t hx)) c hc

/-- C7: on a data line of the form name ":" token-list, the parser stores
for that name, in order, exactly the whitespace-separated tokens that do
not open with a parenthesis or an equals sign, and appends the name to
the ordered server list. -/
theorem c7_lineTokens (m : Map) (name : String) (toks : List String)
    (hname1 : goTrimSpace name = name) (hname2 : name ≠ "")
    (hname3 : ∀ c ∈ name.data, c ≠ ':' ∧ c ≠ '\r')
    (htoks : ∀ t ∈ toks, t.data ≠ [] ∧ ∀ c ∈ t.data, goIsSpace c = false)
    (hskip : skipLine (name ++ ": " ++ joinSpace toks) = false) :
    (processLine m (name ++ ": " ++ joinSpace toks)).Servers =
      setKey m.Servers name
        (toks.filter (fun h => !goHasPrefix h "(" && !goHasPrefix h "=")) ∧
    (processLine m (name ++ ": " ++ joinSpace toks)).ServerList =
      m.ServerList ++ [name] := by
  have hjoinchars := joinSpace_chars toks htoks
  have hline : (name ++ ": " ++ joinSpace toks).data =
      name.data ++ ':' :: ' ' :: (joinSpace toks).data := by
    simp [String.data_append]
  have hnor : ∀ c ∈ (name ++ ": " ++ joinSpace toks).data, c ≠ '\r' := by
    intro c hc
    rw [hline] at hc
    rcases List.mem_append.mp hc with hc | hc
    · exact (hname3 c hc).2
    · rcases List.mem_cons.mp hc with rfl | hc
      · decide
      · rcases List.mem_cons.mp hc with rfl | hc
        · decide
        · rcases hjoinchars c hc with h | rfl
          · intro hcr
            rw [hcr] at h
            exact absurd h (by decide)
          · decide
  have hclean : cleanLine (name ++ ": " ++ joinSpace toks) = name ++ ": " ++ joinSpace toks :=
    cleanLine_eq_self hnor
  have hsplit := takeWhile_append_cons (p := fun c => c != ':')
    name.data (' ' :: (joinSpace toks).data) ':'
    (fun c hc => by simpa using (hname3 c hc).1) (by decide)
  have hld : lineData (name ++ ": " ++ joinSpace toks) = some (name, toks.filter keepHub) := by
    unfold lineData
    rw [hclean, hskip]
    simp only [Bool.false_eq_true, if_false]
    have hcont : ((name ++ ": " ++ joinSpace toks).data.contains ':') = true := by
      rw [hline]
      simp
    rw [hcont, if_pos rfl, hline, hsplit.1, hsplit.2]
    have hserver : goTrimSpace (name.data.asString) = name := by
      rw [asString_data]
      exact hname1
    rw [hserver, if_neg hname2]
    have hdrop : ((':' :: ' ' :: (joinSpace toks).data).drop 1) =
        ' ' :: (joinSpace toks).data := rfl
    rw [hdrop]
    have htrim : goTrimSpace ((' ' :: (joinSpace toks).data).asString) =
        ((joinSpace toks).data).asString :=
      goTrimSpace_space_cons (joinSpace_head htoks) (joinSpace_last htoks)
    rw [htrim]
    have hfields : goFields (((joinSpace toks).data).asString) = toks := by
      unfold goFields
      exact goFields_join htoks
    rw [hfields]
  refine ⟨?_, ?_⟩
  · rw [processLine_Servers_some m hld]
    rfl
  · rw [processLine_ServerList_some m hld]

/-- Witness for C7 at the spec's scenario line
"server1: hub1 (comment) hub2". -/
theorem c7_lineTokens_witness :
    (processLine ⟨[], [], []⟩
      ("server1" ++ ": " ++ joinSpace ["hub1", "(comment)", "hub2"])).Servers =
      setKey [] "server1"
        (["hub1", "(comment)", "hub2"].filter
          (fun h => !goHasPrefix h "(" && !goHasPrefix h "=")) ∧
    (processLine ⟨[], [], []⟩
      ("server1" ++ ": " ++ joinSpace ["hub1", "(comment)", "hub2"])).ServerList =
      [] ++ ["server1"] :=
  c7_lineTokens ⟨[], [], []⟩ "server1" ["hub1", "(comment)", "hub2"]
    (by decide) (by decide) (by decide) (by decide) (by decide)

/-! ### C9: insertion order is never read -/

theorem servers_cons (e : LinkEntry) (l : List LinkEntry) :
    servers (e :: l) = e.server :: servers l := rfl

theorem servers_setEntry_mem {l : List LinkEntry} {e : LinkEntry} {v : String} :
    v ∈ servers (setEntry l e) ↔ v = e.server ∨ v ∈ servers l := by
  induction l with
  | nil => simp [setEntry, servers]
  | cons x rest ih =>
    by_cases hx : x.server = e.server
    · simp only [setEntry, if_pos hx, servers_cons]
      constructor
      · rintro h
        rcases List.mem_cons.mp h with rfl | h
        · exact Or.inl rfl
        · exact Or.inr (List.mem_cons.mpr (Or.inr h))
      · rintro (rfl | h)
        · exact List.mem_cons_self _ _
        · rcases List.mem_cons.mp h with rfl | h
          · rw [hx]
            exact List.mem_cons_self _ _
          · exact List.mem_cons.mpr (Or.inr h)
    · simp only [setEntry, if_neg hx, servers_cons]
      constructor
      · intro h
        rcases List.mem_cons.mp h with rfl | h
        · exact Or.inr (List.mem_cons_self _ _)
        · rcases ih.mp h with h | h
          · exact Or.inl h
          · exact Or.inr (List.mem_cons.mpr (Or.inr h))
      · rintro (rfl | h)
        · exact List.mem_cons.mpr (Or.inr (ih.mpr (Or.inl rfl)))
        · rcases List.mem_cons.mp h with rfl | h
          · exact List.mem_cons_self _ _
          · exact List.mem_cons.mpr (Or.inr (ih.mpr (Or.inr h)))

theorem servers_setEntry_nodup {l : List LinkEntry} {e : LinkEntry}
    (h : (servers l).Nodup) : (servers (setEntry l e)).Nodup := by
  induction l with
  | nil => simp [setEntry, servers]
  | cons x rest ih =>
    rw [servers_cons] at h
    obtain ⟨hx, hrest⟩ := List.nodup_cons.mp h
    by_cases hxe : x.server = e.server
    · simp only [setEntry, if_pos hxe, servers_cons]
      rw [List.nodup_cons]
      exact ⟨by rw [← hxe]; exact hx, hrest⟩
    · simp only [setEntry, if_neg hxe, servers_cons]
      rw [List.nodup_cons]
      refine ⟨?_, ih hrest⟩
      intro hmem
      rcases servers_setEntry_mem.mp hmem with h | h
      · exact hxe h
      · exact hx h

theorem applyAdds_foldl_nodup (ops : List (String × String × Int × String)) :
    ∀ t : LinkTree, (servers t.entries).Nodup →
      (servers (ops.foldl (fun t op => t.Add op.1 op.2.1 op.2.2.1 op.2.2.2) t).entries).Nodup := by
  induction ops with
  | nil => intro t h; exact h
  | cons op rest ih =>
    intro t h
    rw [List.foldl_cons]
    exact ih _ (servers_setEntry_nodup h)

theorem applyAdds_nodup (ops : List (String × String × Int × String)) :
    (servers (applyAdds ops).entries).Nodup :=
  applyAdds_foldl_nodup ops NewLinkTree List.nodup_nil

theorem entries_perm_of_lookup_eq {l1 l2 : List LinkEntry}
    (hnd1 : (servers l1).Nodup) (hnd2 : (servers l2).Nodup)
    (hl : ∀ s, lookupEntry l1 s = lookupEntry l2 s) : l1.Perm l2 := by
  have hn1 : l1.Nodup := List.Nodup.of_map _ (by simpa [servers] using hnd1)
  have hn2 : l2.Nodup := List.Nodup.of_map _ (by simpa [servers] using hnd2)
  rw [List.perm_ext_iff_of_nodup hn1 hn2]
  intro e
  constructor
  · intro he
    have h1 : lookupEntry l1 e.server = some e := lookupEntry_eq_some hnd1 he rfl
    rw [hl e.server] at h1
    exact (lookupEntry_mem h1).1
  · intro he
    have h1 : lookupEntry l2 e.server = some e := lookupEntry_eq_some hnd2 he rfl
    rw [← hl e.server] at h1
    exact (lookupEntry_mem h1).1

theorem find_root_eq {l1 l2 : List LinkEntry} (hp : l1.Perm l2)
    (h0 : ∀ e1 ∈ l1, ∀ e2 ∈ l1, e1.hops = 0 → e2.hops = 0 → e1 = e2) :
    l1.find? (fun e => e.hops == 0) = l2.find? (fun e => e.hops == 0) := by
  cases hf : l1.find? (fun e => e.hops == 0) with
  | none =>
    have hall := List.find?_eq_none.mp hf
    symm
    rw [List.find?_eq_none]
    intro x hx
    exact hall x (hp.mem_iff.mpr hx)
  | some e =>
    have he := List.mem_of_find?_eq_some hf
    have hpe := List.find?_some hf
    symm
    refine find?_eq_some_of_unique (hp.mem_iff.mp he) hpe ?_
    intro x hx hpx
    exact h0 x (hp.mem_iff.mpr hx) e he (by simpa using hpx) (by simpa using hpe)

theorem sorted_perm_eq : ∀ {l1 l2 : List LinkEntry}, l1.Perm l2 →
    List.Sorted entryLE l1 → List.Sorted entryLE l2 →
    (servers l1).Nodup → l1 = l2 := by
  intro l1
  induction l1 with
  | nil =>
    intro l2 hp _ _ _
    exact (List.Perm.eq_nil hp.symm).symm
  | cons a t1 ih =>
    intro l2 hp hs1 hs2 hnd
    cases l2 with
    | nil => exact absurd (List.Perm.eq_nil hp) (by simp)
    | cons b t2 =>
      have hab : a = b := by
        by_contra hne
        have hbmem : b ∈ a :: t1 := hp.mem_iff.mpr (List.mem_cons_self _ _)
        have hamem : a ∈ b :: t2 := hp.mem_iff.mp (List.mem_cons_self _ _)
        have hbt1 : b ∈ t1 := by
          rcases List.mem_cons.mp hbmem with h | h
          · exact absurd h.symm hne
          · exact h
        have hat2 : a ∈ t2 := by
          rcases List.mem_cons.mp hamem with h | h
          · exact absurd h hne
          · exact h
        have h1 : a.server.data ≤ b.server.data := (List.sorted_cons.mp hs1).1 b hbt1
        have h2 : b.server.data ≤ a.server.data := (List.sorted_cons.mp hs2).1 a hat2
        have hserv : a.server = b.server := String.ext (le_antisymm h1 h2)
        have hmem : a.server ∈ servers t1 := mem_servers.mpr ⟨b, hbt1, hserv.symm⟩
        rw [servers_cons] at hnd
        exact (List.nodup_cons.mp hnd).1 hmem
      subst hab
      have htails : t1.Perm t2 := hp.cons_inv
      rw [servers_cons] at hnd
      rw [ih htails (List.sorted_cons.mp hs1).2 (List.sorted_cons.mp hs2).2
        (List.nodup_cons.mp hnd).2]

theorem children_eq_of_perm {l1 l2 : List LinkEntry} (hp : l1.Perm l2)
    (hnd : (servers l1).Nodup) (p : String) : children l1 p = children l2 p := by
  have hfil : (l1.filter (fun e => e.hub == p && e.server != p)).Perm
      (l2.filter (fun e => e.hub == p && e.server != p)) := hp.filter _
  have hperm : (children l1 p).Perm (children l2 p) :=
    ((List.perm_insertionSort entryLE _).trans hfil).trans
      (List.perm_insertionSort entryLE _).symm
  have hnd1 : (servers (children l1 p)).Nodup := by
    have hsub : (l1.filter (fun e => e.hub == p && e.server != p)).Sublist l1 :=
      List.filter_sublist l1
    have h1 : ((l1.filter (fun e => e.hub == p && e.server != p)).map
        (fun e => e.server)).Nodup :=
      (hsub.map _).nodup (by simpa [servers] using hnd)
    have h2 := (((List.perm_insertionSort entryLE
      (l1.filter (fun e => e.hub == p && e.server != p))).map
        (fun e : LinkEntry => e.server)).nodup_iff).mpr h1
    simpa [servers, children] using h2
  exact sorted_perm_eq hperm (List.sorted_insertionSort entryLE _)
    (List.sorted_insertionSort entryLE _) hnd1

theorem walk_eq_of_perm {l1 l2 : List LinkEntry} (hp : l1.Perm l2)
    (hnd : (servers l1).Nodup) : ∀ (fuel : Nat) (p : String),
    walk l1 fuel p = walk l2 fuel p := by
  intro fuel
  induction fuel with
  | zero => intro p; rfl
  | succ n ih =>
    intro p
    rw [walk, walk, children_eq_of_perm hp hnd p]
    have hfun : (fun c : LinkEntry => c.server :: walk l1 n c.server) =
        (fun c : LinkEntry => c.server :: walk l2 n c.server) :=
      funext (fun c => by rw [ih c.server])
    rw [hfun]

theorem hasMore_eq_of_lookup {l1 l2 : List LinkEntry}
    (hl : ∀ s, lookupEntry l1 s = lookupEntry l2 s) (level : Int)
    (remaining : List String) :
    hasMoreAtLevel l1 level remaining = hasMoreAtLevel l2 level remaining := by
  unfold hasMoreAtLevel
  have hfun : (fun server => match lookupEntry l1 server with
      | some entry => entry.hops == level
      | none => false) =
      (fun server : String => match lookupEntry l2 server with
      | some entry => entry.hops == level
      | none => false) :=
    funext (fun s => by rw [hl s])
  rw [hfun]

theorem formatLine_eq_of_lookup {l1 l2 : List LinkEntry}
    (hl : ∀ s, lookupEntry l1 s = lookupEntry l2 s) (e : LinkEntry)
    (remaining : List String) :
    formatLine l1 e remaining = formatLine l2 e remaining := by
  have hseg : ∀ L, buildSeg l1 remaining L = buildSeg l2 remaining L := by
    intro L
    induction L with
    | nil => rfl
    | cons level more ih => rw [buildSeg, buildSeg, hasMore_eq_of_lookup hl, ih]
  unfold formatLine
  rw [hseg]

theorem renderLines_eq_of_lookup {l1 l2 : List LinkEntry}
    (hl : ∀ s, lookupEntry l1 s = lookupEntry l2 s) :
    ∀ ordered : List String, renderLines l1 ordered = renderLines l2 ordered := by
  intro ordered
  induction ordered with
  | nil => rfl
  | cons s rest ih =>
    rw [renderLines, renderLines, hl s, ih]
    cases lookupEntry l2 s with
    | none => rfl
    | some e =>
      exact congrArg (fun line => line :: renderLines l2 rest)
        (formatLine_eq_of_lookup hl e rest)

theorem Build_eq_of_entries {l1 l2 : List LinkEntry} (o1 o2 : List String)
    (hnd1 : (servers l1).Nodup) (hnd2 : (servers l2).Nodup)
    (hl : ∀ s, lookupEntry l1 s = lookupEntry l2 s)
    (h0 : ∀ e1 ∈ l1, ∀ e2 ∈ l1, e1.hops = 0 → e2.hops = 0 → e1 = e2) :
    (LinkTree.mk l1 o1).Build = (LinkTree.mk l2 o2).Build := by
  have hp : l1.Perm l2 := entries_perm_of_lookup_eq hnd1 hnd2 hl
  have hlen : l1.length = l2.length := hp.length_eq
  have hfind := find_root_eq hp h0
  simp only [LinkTree.Build]
  rw [hlen, hfind]
  by_cases hz : l2.length = 0
  · rw [if_pos hz, if_pos hz]
  · rw [if_neg hz, if_neg hz]
    cases hf : l2.find? (fun e => e.hops == 0) with
    | none => rfl
    | some e =>
      by_cases hse : e.server = ""
      · rw [if_pos hse, if_pos hse]
      · rw [if_neg hse, if_neg hse]
        have hord : sortHierarchically l1 e.server = sortHierarchically l2 e.server := by
          unfold sortHierarchically
          rw [hlen, walk_eq_of_perm hp hnd1]
        rw [hord, renderLines_eq_of_lookup hl]

theorem CompareToMap_eq_of_perm {t1 t2 : LinkTree} (m : Map)
    (hp : t1.entries.Perm t2.entries) : CompareToMap t1 m = CompareToMap t2 m := by
  have hperm : t1.GetLinkedServers.Perm t2.GetLinkedServers := hp.map _
  simp only [CompareToMap, Prod.mk.injEq]
  refine ⟨trivial, ?_, ?_⟩
  · exact hperm.length_eq
  · exact filterMap_congr_mem (fun server hs => by rw [perm_any hperm])

/-- C9: two Add-call sequences that leave the same final entries mapping
(with at most one zero-hop record) give identical Build output and
identical CompareToMap results; and the insertion-order sequence, which
Add appends to, is never read by Build, GetLinkedServers or
CompareToMap. -/
theorem c9_order_never_read (ops1 ops2 : List (String × String × Int × String)) (m : Map)
    (t : LinkTree) (o : List String)
    (hsame : ∀ s, lookupEntry (applyAdds ops1).entries s = lookupEntry (applyAdds ops2).entries s)
    (h0 : ∀ e1 ∈ (applyAdds ops1).entries, ∀ e2 ∈ (applyAdds ops1).entries,
      e1.hops = 0 → e2.hops = 0 → e1 = e2) :
    (applyAdds ops1).Build = (applyAdds ops2).Build ∧
    CompareToMap (applyAdds ops1) m = CompareToMap (applyAdds ops2) m ∧
    (LinkTree.mk t.entries o).Build = t.Build ∧
    (LinkTree.mk t.entries o).GetLinkedServers = t.GetLinkedServers ∧
    CompareToMap (LinkTree.mk t.entries o) m = CompareToMap t m := by
  have hnd1 := applyAdds_nodup ops1
  have hnd2 := applyAdds_nodup ops2
  refine ⟨?_, ?_, rfl, rfl, rfl⟩
  · have := Build_eq_of_entries (applyAdds ops1).order (applyAdds ops2).order
      hnd1 hnd2 hsame h0
    simpa using this
  · exact CompareToMap_eq_of_perm m (entries_perm_of_lookup_eq hnd1 hnd2 hsame)

theorem lookup_pair_swap {e1 e2 : LinkEntry} (hne : e1.server ≠ e2.server) (s : String) :
    lookupEntry [e1, e2] s = lookupEntry [e2, e1] s := by
  unfold lookupEntry
  by_cases h1 : e1.server = s
  · by_cases h2 : e2.server = s
    · exact absurd (h1.trans h2.symm) hne
    · rw [List.find?_cons_of_pos _ (by simpa using h1),
        List.find?_cons_of_neg _ (by simpa using h2),
        List.find?_cons_of_pos _ (by simpa using h1)]
  · by_cases h2 : e2.server = s
    · rw [List.find?_cons_of_neg _ (by simpa using h1),
        List.find?_cons_of_pos _ (by simpa using h2),
        List.find?_cons_of_pos _ (by simpa using h2)]
    · rw [List.find?_cons_of_neg _ (by simpa using h1),
        List.find?_cons_of_neg _ (by simpa using h2),
        List.find?_cons_of_neg _ (by simpa using h2),
        List.find?_cons_of_neg _ (by simpa using h1)]

/-- Witness for C9: the same two records added in either order. -/
theorem c9_order_never_read_witness :
    (applyAdds [("hub.net", "hub.net", 0, "Hub"), ("a.net", "hub.net", 1, "A")]).Build =
      (applyAdds [("a.net", "hub.net", 1, "A"), ("hub.net", "hub.net", 0, "Hub")]).Build :=
  (c9_order_never_read [("hub.net", "hub.net", 0, "Hub"), ("a.net", "hub.net", 1, "A")]
    [("a.net", "hub.net", 1, "A"), ("hub.net", "hub.net", 0, "Hub")]
    ⟨[], [], []⟩ NewLinkTree []
    (by
      intro s
      have ha : (applyAdds [("hub.net", "hub.net", 0, "Hub"),
          ("a.net", "hub.net", 1, "A")]).entries =
          [⟨"hub.net", "hub.net", 0, "Hub"⟩, ⟨"a.net", "hub.net", 1, "A"⟩] := by decide
      have hb : (applyAdds [("a.net", "hub.net", 1, "A"),
          ("hub.net", "hub.net", 0, "Hub")]).entries =
          [⟨"a.net", "hub.net", 1, "A"⟩, ⟨"hub.net", "hub.net", 0, "Hub"⟩] := by decide
      rw [ha, hb]
      exact lookup_pair_swap (by decide) s)
    (by decide)).1

/-! ### C1: depth-first tree reconstruction

The hub-tree hypothesis of the claim is formalised by a depth function d:
every record other than the root has a parent record (its hub) one level
above it, and no record's hub pointer makes the root a child.  This is
the standard way of saying that the hub pointers form a tree rooted at
the unique zero-hop record and spanning all records. -/

structure TreeHyp (l : List LinkEntry) (r : LinkEntry) (d : String → Nat) : Prop where
  nodup : (servers l).Nodup
  rmem : r ∈ l
  root_no_parent : ∀ e ∈ l, e.server = r.hub → r.hub = r.server
  depth : ∀ e ∈ l, e.server ≠ r.server →
    ∃ p, p ∈ l ∧ p.server = e.hub ∧ d e.server = d p.server + 1

theorem childNameB_iff {l : List LinkEntry} {p v : String} :
    childNameB l p v = true ↔ isChildName l p v := by
  simp [childNameB, isChildName, List.any_eq_true, and_assoc]

theorem mem_children_iff {l : List LinkEntry} {e : LinkEntry} {q : String} :
    e ∈ children l q ↔ e ∈ l ∧ e.hub = q ∧ e.server ≠ q := by
  unfold children
  rw [(List.perm_insertionSort entryLE _).mem_iff, List.mem_filter]
  simp

theorem children_child {l : List LinkEntry} {e : LinkEntry} {q : String}
    (he : e ∈ children l q) : isChildName l q e.server := by
  obtain ⟨h1, h2, h3⟩ := mem_children_iff.mp he
  exact ⟨e, h1, rfl, h2, h3⟩

theorem children_pairwise_ne {l : List LinkEntry} (hnd : (servers l).Nodup) (q : String) :
    List.Pairwise (fun a b : LinkEntry => a.server ≠ b.server) (children l q) := by
  have hnd2 : (l.map (fun e => e.server)).Nodup := hnd
  have h1 : List.Pairwise (fun a b : LinkEntry => a.server ≠ b.server) l :=
    List.pairwise_map.mp hnd2
  have h2 := List.Pairwise.sublist
    (List.filter_sublist l (p := fun e => e.hub == q && e.server != q)) h1
  unfold children
  exact ((List.perm_insertionSort entryLE _).pairwise_iff
    (fun h => Ne.symm h)).mpr h2

theorem childName_d {l : List LinkEntry} {r : LinkEntry} {d : String → Nat}
    (H : TreeHyp l r d) {p v : String}
    (hok : p = r.server ∨ p ∈ servers l) (hc : isChildName l p v) :
    v ∈ servers l ∧ v ≠ r.server ∧ d v = d p + 1 := by
  obtain ⟨e, he, hev, hehub, hvp⟩ := hc
  have hvr : v ≠ r.server := by
    intro hvr
    have her : e = r := server_inj H.nodup he H.rmem (by rw [hev, hvr])
    have hhub : r.hub = p := by rw [← her]; exact hehub
    rcases hok with rfl | hps
    · exact hvp hvr
    · obtain ⟨e2, he2, hes⟩ := mem_servers.mp hps
      have hrr := H.root_no_parent e2 he2 (by rw [hes, hhub])
      exact hvp (by rw [hvr, ← hrr, hhub])
  have hesr : e.server ≠ r.server := by rw [hev]; exact hvr
  obtain ⟨p2, hp2, hp2s, hdp⟩ := H.depth e he hesr
  have hps : p2.server = p := by rw [hp2s, hehub]
  refine ⟨mem_servers.mpr ⟨e, he, hev⟩, hvr, ?_⟩
  rw [← hev, hdp, hps]

theorem pathFrom_ne_nil {l : List LinkEntry} {p : String} {vs : List String}
    (h : PathFrom l p vs) : vs ≠ [] := by
  cases h <;> simp

theorem getLast?_cons_of_ne_nil {α : Type _} {vs : List α} (u : α) (h : vs ≠ []) :
    (u :: vs).getLast? = vs.getLast? := by
  cases vs with
  | nil => exact absurd rfl h
  | cons x xs => rfl

theorem mem_of_getLast? {α : Type _} {vs : List α} {v : α} (h : vs.getLast? = some v) :
    v ∈ vs := by
  obtain ⟨ys, rfl⟩ := List.getLast?_eq_some_iff.mp h
  simp

theorem pathFrom_facts {l : List LinkEntry} {r : LinkEntry} {d : String → Nat}
    (H : TreeHyp l r d) : ∀ {p : String} {vs : List String}, PathFrom l p vs →
    (p = r.server ∨ p ∈ servers l) →
    vs.Nodup ∧ ∀ v ∈ vs, v ∈ servers l ∧ v ≠ r.server ∧ d p < d v := by
  intro p vs hpath
  induction hpath with
  | single hc =>
    intro hok
    obtain ⟨hmem, hvr, hdv⟩ := childName_d H hok hc
    refine ⟨List.nodup_singleton _, ?_⟩
    intro v hv
    rcases List.mem_cons.mp hv with rfl | hv
    · exact ⟨hmem, hvr, by omega⟩
    · cases hv
  | cons hc hrest ih =>
    intro hok
    obtain ⟨humem, hur, hdu⟩ := childName_d H hok hc
    obtain ⟨hnd_vs, hfacts⟩ := ih (Or.inr humem)
    refine ⟨?_, ?_⟩
    · rw [List.nodup_cons]
      refine ⟨fun hmem => ?_, hnd_vs⟩
      have := (hfacts _ hmem).2.2
      omega
    · intro v hv
      rcases List.mem_cons.mp hv with rfl | hv
      · exact ⟨humem, hur, by omega⟩
      · obtain ⟨hm, hnr, hlt⟩ := hfacts v hv
        exact ⟨hm, hnr, by omega⟩

theorem pathFrom_last_d {l : List LinkEntry} {r : LinkEntry} {d : String → Nat}
    (H : TreeHyp l r d) : ∀ {p : String} {vs : List String}, PathFrom l p vs →
    (p = r.server ∨ p ∈ servers l) →
    ∀ v, vs.getLast? = some v → d v = d p + vs.length := by
  intro p vs hpath
  induction hpath with
  | single hc =>
    intro hok v hlast
    rw [show ∀ x : String, ([x] : List String).getLast? = some x from fun x => rfl] at hlast
    cases hlast
    obtain ⟨_, _, hdv⟩ := childName_d H hok hc
    simpa using hdv
  | cons hc hrest ih =>
    intro hok v hlast
    obtain ⟨humem, _, hdu⟩ := childName_d H hok hc
    rw [getLast?_cons_of_ne_nil _ (pathFrom_ne_nil hrest)] at hlast
    have := ih (Or.inr humem) v hlast
    simp only [List.length_cons]
    omega

theorem childName_unique {l : List LinkEntry} (hnd : (servers l).Nodup)
    {p1 p2 v : String} (h1 : isChildName l p1 v) (h2 : isChildName l p2 v) : p1 = p2 := by
  obtain ⟨e1, he1, hs1, hh1, _⟩ := h1
  obtain ⟨e2, he2, hs2, hh2, _⟩ := h2
  have : e1 = e2 := server_inj hnd he1 he2 (hs1.trans hs2.symm)
  rw [← hh1, this, hh2]

theorem pathFrom_snoc {l : List LinkEntry} : ∀ {p : String} {vs : List String},
    PathFrom l p vs → ∀ {u v : String}, vs.getLast? = some u → isChildName l u v →
    PathFrom l p (vs ++ [v]) := by
  intro p vs hpath
  induction hpath with
  | single hc =>
    intro u v hlast hcv
    rw [show ∀ x : String, ([x] : List String).getLast? = some x from fun x => rfl] at hlast
    cases hlast
    exact PathFrom.cons hc (PathFrom.single hcv)
  | cons hc hrest ih =>
    intro u v hlast hcv
    rw [getLast?_cons_of_ne_nil _ (pathFrom_ne_nil hrest)] at hlast
    exact PathFrom.cons hc (ih hlast hcv)

theorem pathFrom_snoc_inv {l : List LinkEntry} : ∀ {p : String} {vs : List String},
    PathFrom l p vs → ∀ {v : String}, vs.getLast? = some v →
    (vs = [v] ∧ isChildName l p v) ∨
    ∃ u vs0, vs = vs0 ++ [v] ∧ PathFrom l p vs0 ∧ vs0.getLast? = some u ∧
      isChildName l u v := by
  intro p vs hpath
  induction hpath with
  | single hc =>
    intro v hlast
    rw [show ∀ x : String, ([x] : List String).getLast? = some x from fun x => rfl] at hlast
    cases hlast
    exact Or.inl ⟨rfl, hc⟩
  | cons hc hrest ih =>
    intro v hlast
    rw [getLast?_cons_of_ne_nil _ (pathFrom_ne_nil hrest)] at hlast
    rcases ih hlast with ⟨hvs, hcv⟩ | ⟨w, vs0, hvs, hp0, hlast0, hcw⟩
    · subst hvs
      refine Or.inr ⟨_, [_], rfl, PathFrom.single hc, rfl, hcv⟩
    · subst hvs
      refine Or.inr ⟨w, _ :: vs0, rfl, PathFrom.cons hc hp0, ?_, hcw⟩
      rw [getLast?_cons_of_ne_nil _ (pathFrom_ne_nil hp0)]
      exact hlast0

theorem path_source_unique {l : List LinkEntry} {r : LinkEntry} {d : String → Nat}
    (H : TreeHyp l r d) : ∀ (n : Nat) {c1 c2 : String} {vs1 vs2 : List String} {v : String},
    vs1.length ≤ n → PathFrom l c1 vs1 → PathFrom l c2 vs2 →
    vs1.getLast? = some v → vs2.getLast? = some v →
    c1 ∈ servers l → c2 ∈ servers l → d c1 = d c2 → c1 = c2 := by
  intro n
  induction n with
  | zero =>
    intro c1 c2 vs1 vs2 v hlen hp1 hp2 hl1 hl2 hm1 hm2 hdc
    have := pathFrom_ne_nil hp1
    cases vs1 with
    | nil => exact absurd rfl this
    | cons x xs => simp at hlen
  | succ n ih =>
    intro c1 c2 vs1 vs2 v hlen hp1 hp2 hl1 hl2 hm1 hm2 hdc
    have hd1 := pathFrom_last_d H hp1 (Or.inr hm1) v hl1
    have hd2 := pathFrom_last_d H hp2 (Or.inr hm2) v hl2
    have hleneq : vs1.length = vs2.length := by omega
    rcases pathFrom_snoc_inv hp1 hl1 with ⟨hvs1, hc1⟩ | ⟨u1, vs01, hvs1, hp01, hl01, hc1⟩
    · rcases pathFrom_snoc_inv hp2 hl2 with ⟨hvs2, hc2⟩ | ⟨u2, vs02, hvs2, hp02, hl02, hc2⟩
      · exact childName_unique H.nodup hc1 hc2
      · exfalso
        have h1 : vs1.length = 1 := by rw [hvs1]; rfl
        have h2 : vs2.length = vs02.length + 1 := by rw [hvs2]; simp
        have h0 := pathFrom_ne_nil hp02
        cases vs02 with
        | nil => exact absurd rfl h0
        | cons x xs => simp at h1 h2; omega
    · rcases pathFrom_snoc_inv hp2 hl2 with ⟨hvs2, hc2⟩ | ⟨u2, vs02, hvs2, hp02, hl02, hc2⟩
      · exfalso
        have h2 : vs2.length = 1 := by rw [hvs2]; rfl
        have h1 : vs1.length = vs01.length + 1 := by rw [hvs1]; simp
        have h0 := pathFrom_ne_nil hp01
        cases vs01 with
        | nil => exact absurd rfl h0
        | cons x xs => simp at h1 h2; omega
      · have huu : u1 = u2 := childName_unique H.nodup hc1 hc2
        subst huu
        have hm01 : u1 ∈ servers l :=
          ((pathFrom_facts H hp01 (Or.inr hm1)).2 u1 (mem_of_getLast? hl01)).1
        have hm02 : u1 ∈ servers l := hm01
        have hlen01 : vs01.length ≤ n := by
          have : vs1.length = vs01.length + 1 := by rw [hvs1]; simp
          omega
        have hd01 := pathFrom_last_d H hp01 (Or.inr hm1) u1 hl01
        have hd02 := pathFrom_last_d H hp02 (Or.inr hm2) u1 hl02
        have hlen012 : vs01.length = vs02.length := by
          have e1 : vs1.length = vs01.length + 1 := by rw [hvs1]; simp
          have e2 : vs2.length = vs02.length + 1 := by rw [hvs2]; simp
          omega
        exact ih hlen01 hp01 hp02 hl01 hl02 hm1 hm2 hdc

theorem walk_path {l : List LinkEntry} : ∀ (fuel : Nat) (p v : String),
    v ∈ walk l fuel p →
    ∃ vs, PathFrom l p vs ∧ vs.getLast? = some v ∧ vs.length ≤ fuel := by
  intro fuel
  induction fuel with
  | zero => intro p v hv; cases hv
  | succ n ih =>
    intro p v hv
    rw [walk] at hv
    obtain ⟨c, hc, hvc⟩ := List.mem_flatMap.mp hv
    rcases List.mem_cons.mp hvc with rfl | hvc
    · exact ⟨[c.server], PathFrom.single (children_child hc), rfl, by simp⟩
    · obtain ⟨vs, hp, hlast, hlen⟩ := ih c.server v hvc
      refine ⟨c.server :: vs, PathFrom.cons (children_child hc) hp, ?_, ?_⟩
      · rw [getLast?_cons_of_ne_nil _ (pathFrom_ne_nil hp)]
        exact hlast
      · simp only [List.length_cons]
        omega

theorem path_walk {l : List LinkEntry} : ∀ {p : String} {vs : List String},
    PathFrom l p vs → ∀ {v : String} (fuel : Nat), vs.getLast? = some v →
    vs.length ≤ fuel → v ∈ walk l fuel p := by
  intro p vs hpath
  induction hpath with
  | single hc =>
    intro v fuel hlast hlen
    rw [show ∀ x : String, ([x] : List String).getLast? = some x from fun x => rfl] at hlast
    cases hlast
    cases fuel with
    | zero => simp at hlen
    | succ n =>
      rw [walk]
      obtain ⟨e, he, hes, heh, hne⟩ := hc
      refine List.mem_flatMap.mpr ⟨e, mem_children_iff.mpr ⟨he, heh, by rw [hes]; exact hne⟩, ?_⟩
      rw [hes]
      exact List.mem_cons_self _ _
  | cons hc hrest ih =>
    intro v fuel hlast hlen
    rw [getLast?_cons_of_ne_nil _ (pathFrom_ne_nil hrest)] at hlast
    cases fuel with
    | zero => simp at hlen
    | succ n =>
      rw [walk]
      obtain ⟨e, he, hes, heh, hne⟩ := hc
      refine List.mem_flatMap.mpr ⟨e, mem_children_iff.mpr ⟨he, heh, by rw [hes]; exact hne⟩, ?_⟩
      refine List.mem_cons.mpr (Or.inr ?_)
      rw [hes]
      refine ih n hlast ?_
      simp only [List.length_cons] at hlen
      omega

theorem walk_mem_facts {l : List LinkEntry} {r : LinkEntry} {d : String → Nat}
    (H : TreeHyp l r d) {fuel : Nat} {p v : String}
    (hok : p = r.server ∨ p ∈ servers l) (hv : v ∈ walk l fuel p) :
    v ∈ servers l ∧ v ≠ r.server ∧ d p < d v := by
  obtain ⟨vs, hp, hlast, _⟩ := walk_path fuel p v hv
  exact (pathFrom_facts H hp hok).2 v (mem_of_getLast? hlast)

/-- Membership in the emitted subtree of a node: the node itself or a
chain target below it. -/
def InSub (l : List LinkEntry) (c v : String) : Prop :=
  v = c ∨ ∃ vs, PathFrom l c vs ∧ vs.getLast? = some v

theorem block_mem_inSub {l : List LinkEntry} {fuel : Nat} {c v : String}
    (hv : v ∈ c :: walk l fuel c) : InSub l c v := by
  rcases List.mem_cons.mp hv with rfl | hv
  · exact Or.inl rfl
  · obtain ⟨vs, hp, hlast, _⟩ := walk_path fuel c v hv
    exact Or.inr ⟨vs, hp, hlast⟩

theorem subtree_disjoint {l : List LinkEntry} {r : LinkEntry} {d : String → Nat}
    (H : TreeHyp l r d) {c1 c2 : String}
    (hm1 : c1 ∈ servers l) (hm2 : c2 ∈ servers l) (hdc : d c1 = d c2)
    (hne : c1 ≠ c2) {v : String} (h1 : InSub l c1 v) (h2 : InSub l c2 v) : False := by
  rcases h1 with rfl | ⟨vs1, hp1, hl1⟩
  · rcases h2 with rfl | ⟨vs2, hp2, hl2⟩
    · exact hne rfl
    · have := pathFrom_last_d H hp2 (Or.inr hm2) _ hl2
      have hpos := pathFrom_ne_nil hp2
      cases vs2 with
      | nil => exact absurd rfl hpos
      | cons x xs => simp only [List.length_cons] at this; omega
  · rcases h2 with rfl | ⟨vs2, hp2, hl2⟩
    · have := pathFrom_last_d H hp1 (Or.inr hm1) _ hl1
      have hpos := pathFrom_ne_nil hp1
      cases vs1 with
      | nil => exact absurd rfl hpos
      | cons x xs => simp only [List.length_cons] at this; omega
    · exact hne (path_source_unique H vs1.length (le_refl _) hp1 hp2 hl1 hl2 hm1 hm2 hdc)

theorem children_d {l : List LinkEntry} {r : LinkEntry} {d : String → Nat}
    (H : TreeHyp l r d) {q : String} (hok : q = r.server ∨ q ∈ servers l)
    {c : LinkEntry} (hc : c ∈ children l q) :
    c.server ∈ servers l ∧ c.server ≠ r.server ∧ d c.server = d q + 1 :=
  childName_d H hok (children_child hc)

theorem walk_nodup {l : List LinkEntry} {r : LinkEntry} {d : String → Nat}
    (H : TreeHyp l r d) : ∀ (fuel : Nat) (p : String),
    (p = r.server ∨ p ∈ servers l) → (walk l fuel p).Nodup := by
  intro fuel
  induction fuel with
  | zero => intro p _; exact List.nodup_nil
  | succ n ih =>
    intro p hok
    rw [walk, List.nodup_flatMap]
    constructor
    · intro c hc
      obtain ⟨hcm, _, _⟩ := children_d H hok hc
      rw [List.nodup_cons]
      refine ⟨fun hmem => ?_, ih c.server (Or.inr hcm)⟩
      have := (walk_mem_facts H (Or.inr hcm) hmem).2.2
      omega
    · refine (children_pairwise_ne H.nodup p).imp_of_mem ?_
      intro a b ha hb hne
      intro v hva hvb
      obtain ⟨ham, _, hda⟩ := children_d H hok ha
      obtain ⟨hbm, _, hdb⟩ := children_d H hok hb
      have hsne : a.server ≠ b.server := hne
      exact subtree_disjoint H ham hbm (by omega) hsne
        (block_mem_inSub hva) (block_mem_inSub hvb)

theorem children_servers_sorted {l : List LinkEntry} (hnd : (servers l).Nodup) (q : String) :
    List.Sorted (fun a b : String => a.data < b.data)
      ((children l q).map (fun e => e.server)) := by
  have hs : List.Sorted entryLE (children l q) := List.sorted_insertionSort entryLE _
  have hne := children_pairwise_ne hnd q
  have h3 : List.Pairwise (fun a b : LinkEntry => a.server.data < b.server.data)
      (children l q) := by
    refine (hs.and hne).imp ?_
    rintro a b ⟨h1, h2⟩
    exact lt_of_le_of_ne h1 (fun heq => h2 (String.ext heq))
  exact List.pairwise_map.mpr h3

theorem subtree_parent_in {l : List LinkEntry} {fuel : Nat} {c q v : String}
    (hnd : (servers l).Nodup) (hv : v ∈ walk l fuel c) (hq : isChildName l q v) :
    q ∈ c :: walk l fuel c := by
  obtain ⟨vs, hp, hlast, hlen⟩ := walk_path fuel c v hv
  rcases pathFrom_snoc_inv hp hlast with ⟨hvs, hc⟩ | ⟨u, vs0, hvs, hp0, hl0, hcu⟩
  · rw [childName_unique hnd hq hc]
    exact List.mem_cons_self _ _
  · rw [childName_unique hnd hq hcu]
    refine List.mem_cons.mpr (Or.inr ?_)
    refine path_walk hp0 fuel hl0 ?_
    have : vs.length = vs0.length + 1 := by rw [hvs]; simp
    omega

theorem sorted_flatMap_single {α : Type _} {R : String → String → Prop} :
    ∀ (cs : List α) (f : α → List String), (∀ c ∈ cs, List.Sorted R (f c)) →
    List.Pairwise (fun a b => f a = [] ∨ f b = []) cs →
    List.Sorted R (cs.flatMap f) := by
  intro cs f
  induction cs with
  | nil => intro _ _; exact List.sorted_nil
  | cons c rest ih =>
    intro hs hp
    rw [List.flatMap_cons]
    obtain ⟨hhead, htail⟩ := List.pairwise_cons.mp hp
    by_cases hfc : f c = []
    · rw [hfc, List.nil_append]
      exact ih (fun x hx => hs x (List.mem_cons_of_mem c hx)) htail
    · have hrest : rest.flatMap f = [] := by
        rw [List.flatMap_eq_nil_iff]
        intro x hx
        rcases hhead x hx with h | h
        · exact absurd h hfc
        · exact h
      rw [hrest, List.append_nil]
      exact hs c (List.mem_cons_self _ _)

theorem flatMap_eq_map_of {α β : Type _} : ∀ (cs : List α) (f : α → List β) (g : α → β),
    (∀ c ∈ cs, f c = [g c]) → cs.flatMap f = cs.map g := by
  intro cs f g
  induction cs with
  | nil => intro _; rfl
  | cons c rest ih =>
    intro h
    rw [List.flatMap_cons, List.map_cons, h c (List.mem_cons_self _ _),
      ih (fun x hx => h x (List.mem_cons_of_mem c hx))]
    rfl

theorem walk_filter_sorted {l : List LinkEntry} {r : LinkEntry} {d : String → Nat}
    (H : TreeHyp l r d) : ∀ (fuel : Nat) (p : String),
    (p = r.server ∨ p ∈ servers l) → ∀ q : String,
    List.Sorted (fun a b : String => a.data < b.data)
      ((walk l fuel p).filter (childNameB l q)) := by
  intro fuel
  induction fuel with
  | zero => intro p _ q; exact List.sorted_nil
  | succ n ih =>
    intro p hok q
    rw [walk, List.filter_flatMap]
    by_cases hqp : q = p
    · subst hqp
      have hblocks : ∀ c ∈ children l q,
          List.filter (childNameB l q) (c.server :: walk l n c.server) = [c.server] := by
        intro c hc
        obtain ⟨hcm, _, hdc⟩ := children_d H hok hc
        have hB : childNameB l q c.server = true := childNameB_iff.mpr (children_child hc)
        rw [List.filter_cons, if_pos hB]
        have hwalk : List.filter (childNameB l q) (walk l n c.server) = [] := by
          rw [List.filter_eq_nil_iff]
          intro a ha hB2
          have hchild := childNameB_iff.mp hB2
          obtain ⟨ham, hanr, hda⟩ := childName_d H hok hchild
          have := (walk_mem_facts H (Or.inr hcm) ha).2.2
          omega
        rw [hwalk]
      rw [flatMap_eq_map_of _ _ _ hblocks]
      exact children_servers_sorted H.nodup q
    · have hblocks : ∀ c ∈ children l p,
          List.filter (childNameB l q) (c.server :: walk l n c.server) =
            List.filter (childNameB l q) (walk l n c.server) := by
        intro c hc
        have hB : ¬ (childNameB l q c.server = true) := fun hB =>
          hqp (childName_unique H.nodup (childNameB_iff.mp hB) (children_child hc))
        rw [List.filter_cons, if_neg hB]
      have hpair : List.Pairwise (fun a b : LinkEntry =>
          List.filter (childNameB l q) (a.server :: walk l n a.server) = [] ∨
          List.filter (childNameB l q) (b.server :: walk l n b.server) = [])
          (children l p) := by
        refine (children_pairwise_ne H.nodup p).imp_of_mem ?_
        intro a b ha hb hne
        by_contra hcon
        push_neg at hcon
        obtain ⟨ha2, hb2⟩ := hcon
        have hexa : ∃ x ∈ a.server :: walk l n a.server, childNameB l q x = true := by
          by_contra hno
          push_neg at hno
          exact ha2 (List.filter_eq_nil_iff.mpr (fun x hx h => (hno x hx) h))
        have hexb : ∃ x ∈ b.server :: walk l n b.server, childNameB l q x = true := by
          by_contra hno
          push_neg at hno
          exact hb2 (List.filter_eq_nil_iff.mpr (fun x hx h => (hno x hx) h))
        obtain ⟨va, hvamem, hBa⟩ := hexa
        obtain ⟨vb, hvbmem, hBb⟩ := hexb
        have hqa : q ∈ a.server :: walk l n a.server := by
          rcases List.mem_cons.mp hvamem with rfl | hmem
          · exact absurd (childName_unique H.nodup (childNameB_iff.mp hBa)
              (children_child ha)) hqp
          · exact subtree_parent_in H.nodup hmem (childNameB_iff.mp hBa)
        have hqb : q ∈ b.server :: walk l n b.server := by
          rcases List.mem_cons.mp hvbmem with rfl | hmem
          · exact absurd (childName_unique H.nodup (childNameB_iff.mp hBb)
              (children_child hb)) hqp
          · exact subtree_parent_in H.nodup hmem (childNameB_iff.mp hBb)
        obtain ⟨ham, _, hda⟩ := children_d H hok ha
        obtain ⟨hbm, _, hdb⟩ := children_d H hok hb
        exact subtree_disjoint H ham hbm (by omega) hne
          (block_mem_inSub hqa) (block_mem_inSub hqb)
      refine sorted_flatMap_single _ _ ?_ hpair
      intro c hc
      rw [hblocks c hc]
      obtain ⟨hcm, _, _⟩ := children_d H hok hc
      exact ih c.server (Or.inr hcm) q

theorem flatMap_block_sublist {α β : Type _} : ∀ (cs : List α) (f : α → List β) (c : α),
    c ∈ cs → (f c).Sublist (cs.flatMap f) := by
  intro cs f c
  induction cs with
  | nil => intro h; cases h
  | cons x rest ih =>
    intro h
    rw [List.flatMap_cons]
    rcases List.mem_cons.mp h with rfl | h
    · exact List.sublist_append_left _ _
    · exact (ih h).trans (List.sublist_append_right _ _)

theorem walk_parent_sublist {l : List LinkEntry} {r : LinkEntry} {d : String → Nat}
    (H : TreeHyp l r d) : ∀ (fuel : Nat) (p : String),
    (p = r.server ∨ p ∈ servers l) →
    ∀ v ∈ walk l fuel p, ∀ e ∈ l, e.server = v →
    List.Sublist [e.hub, v] (p :: walk l fuel p) := by
  intro fuel
  induction fuel with
  | zero => intro p _ v hv; cases hv
  | succ n ih =>
    intro p hok v hv e he hes
    rw [walk] at hv ⊢
    obtain ⟨c, hc, hvc⟩ := List.mem_flatMap.mp hv
    rcases List.mem_cons.mp hvc with hveq | hvc2
    · have hce : e = c := server_inj H.nodup he (mem_children_iff.mp hc).1
        (by rw [hes, hveq])
      have hhub : e.hub = p := by rw [hce]; exact (mem_children_iff.mp hc).2.1
      rw [hhub]
      exact List.Sublist.cons₂ p (List.singleton_sublist.mpr hv)
    · obtain ⟨hcm, _, _⟩ := children_d H hok hc
      have hsub := ih c.server (Or.inr hcm) v hvc2 e he hes
      have hblock : (c.server :: walk l n c.server).Sublist
          ((children l p).flatMap (fun c => c.server :: walk l n c.server)) :=
        flatMap_block_sublist _ (fun c : LinkEntry => c.server :: walk l n c.server) c hc
      exact List.Sublist.cons p (hsub.trans hblock)

theorem root_path {l : List LinkEntry} {r : LinkEntry} {d : String → Nat}
    (H : TreeHyp l r d) : ∀ (n : Nat), ∀ e ∈ l, e ≠ r → d e.server ≤ n →
    ∃ vs, PathFrom l r.server vs ∧ vs.getLast? = some e.server := by
  intro n
  induction n with
  | zero =>
    intro e he hne hle
    have hesr : e.server ≠ r.server := fun h => hne (server_inj H.nodup he H.rmem h)
    obtain ⟨p, hp, hps, hdp⟩ := H.depth e he hesr
    omega
  | succ n ih =>
    intro e he hne hle
    have hesr : e.server ≠ r.server := fun h => hne (server_inj H.nodup he H.rmem h)
    obtain ⟨p, hp, hps, hdp⟩ := H.depth e he hesr
    by_cases hpr : p = r
    · refine ⟨[e.server], PathFrom.single ⟨e, he, rfl, ?_, hesr⟩, rfl⟩
      rw [← hps, hpr]
    · have hdp2 : d p.server ≤ n := by omega
      obtain ⟨vs, hpath, hlast⟩ := ih p hp hpr hdp2
      refine ⟨vs ++ [e.server], pathFrom_snoc hpath hlast ⟨e, he, rfl, hps.symm, ?_⟩, ?_⟩
      · intro h
        rw [h] at hdp
        omega
      · simp [List.getLast?_append]

theorem pathFrom_length_le {l : List LinkEntry} {r : LinkEntry} {d : String → Nat}
    (H : TreeHyp l r d) {p : String} {vs : List String} (hpath : PathFrom l p vs)
    (hok : p = r.server ∨ p ∈ servers l) : vs.length ≤ l.length := by
  obtain ⟨hnd_vs, hfacts⟩ := pathFrom_facts H hpath hok
  have hsubset : vs ⊆ servers l := fun v hv => (hfacts v hv).1
  have := (List.Nodup.subperm hnd_vs hsubset).length_le
  simpa [servers] using this

/-- C1: on a snapshot whose entries hold exactly one zero-hop record and
whose hub pointers form a tree rooted there (witnessed by a depth
function), Build's root search locates that record, and the Tree
Builder's ordered sequence begins with the root, contains every record's
server name exactly once (it is a permutation of the server-name list),
lists the children of every node in ascending byte-wise lexicographic
order, and emits every non-root node after its hub. -/
theorem c1_tree_builder (l : List LinkEntry) (r : LinkEntry) (d : String → Nat)
    (hnd : (servers l).Nodup) (hr : r ∈ l) (h0 : r.hops = 0)
    (huniq : ∀ e ∈ l, e.hops = 0 → e = r)
    (hroot : ∀ e ∈ l, e.server = r.hub → r.hub = r.server)
    (hd : ∀ e ∈ l, e.server ≠ r.server →
      ∃ p, p ∈ l ∧ p.server = e.hub ∧ d e.server = d p.server + 1) :
    l.find? (fun e => e.hops == 0) = some r ∧
    (sortHierarchically l r.server).head? = some r.server ∧
    (sortHierarchically l r.server).Perm (servers l) ∧
    (∀ q ∈ l, List.Sorted (fun a b : String => a.data < b.data)
      ((sortHierarchically l r.server).filter (childNameB l q.server))) ∧
    (∀ v ∈ sortHierarchically l r.server, v ≠ r.server →
      ∀ e ∈ l, e.server = v →
        List.Sublist [e.hub, v] (sortHierarchically l r.server)) := by
  have H : TreeHyp l r d := ⟨hnd, hr, hroot, hd⟩
  have hokr : r.server = r.server ∨ r.server ∈ servers l := Or.inl rfl
  refine ⟨?_, rfl, ?_, ?_, ?_⟩
  · exact find?_eq_some_of_unique hr (by simpa using h0)
      (fun x hx hpx => huniq x hx (by simpa using hpx))
  · have hnodup_out : (sortHierarchically l r.server).Nodup := by
      rw [sortHierarchically, List.nodup_cons]
      refine ⟨fun hmem => ?_, walk_nodup H l.length r.server hokr⟩
      exact (walk_mem_facts H hokr hmem).2.1 rfl
    refine (List.perm_ext_iff_of_nodup hnodup_out hnd).mpr ?_
    intro v
    constructor
    · intro hv
      rw [sortHierarchically] at hv
      rcases List.mem_cons.mp hv with rfl | hv2
      · exact mem_servers.mpr ⟨r, hr, rfl⟩
      · exact (walk_mem_facts H hokr hv2).1
    · intro hv
      obtain ⟨e, he, hev⟩ := mem_servers.mp hv
      by_cases her : e = r
      · rw [sortHierarchically, ← hev, her]
        exact List.mem_cons_self _ _
      · obtain ⟨vs, hpath, hlast⟩ := root_path H (d e.server) e he her (le_refl _)
        have hlen := pathFrom_length_le H hpath hokr
        rw [sortHierarchically]
        refine List.mem_cons.mpr (Or.inr ?_)
        rw [← hev]
        exact path_walk hpath l.length hlast hlen
  · intro q hq
    rw [sortHierarchically, List.filter_cons]
    have hB : ¬ (childNameB l q.server r.server = true) := by
      intro hB
      obtain ⟨e, he, hes, heh, hner⟩ := childNameB_iff.mp hB
      have her : e = r := server_inj hnd he hr hes
      have hhub : r.hub = q.server := by rw [← her]; exact heh
      have h2 := hroot q hq hhub.symm
      exact hner (by rw [← h2, hhub])
    rw [if_neg hB]
    exact walk_filter_sorted H l.length r.server hokr q.server
  · intro v hv hvr e he hes
    rw [sortHierarchically] at hv ⊢
    rcases List.mem_cons.mp hv with rfl | hv2
    · exact absurd rfl hvr
    · exact walk_parent_sublist H l.length r.server hokr v hv2 e he hes

/-- Witness for C1 at the four-record scenario snapshot, with the
explicit depth assignment of its tree. -/
theorem c1_tree_builder_witness :
    (sortHierarchically tree6.entries
      (⟨"hub.net", "hub.net", 0, "Hub"⟩ : LinkEntry).server).Perm
      (servers tree6.entries) :=
  (c1_tree_builder tree6.entries ⟨"hub.net", "hub.net", 0, "Hub"⟩
    (fun s => if s = "hub.net" then 0 else if s = "c.net" then 2 else 1)
    (by decide) (by decide) (by decide) (by decide) (by decide) (by decide)).2.2.1
